import Mathlib

/-!
Verification of the BitMagic bvector serialization core (bmserial.h, encoding.h).

The development shallowly embeds the parts of the codec relevant to the
checked properties:

* the unaligned bit-stream writer `bit_out` (32-bit accumulator, flushed as
  little-endian 32-bit words) and its Elias-gamma encoder `bit_out::gamma`;
* the unaligned bit-stream reader `bit_in` and its decoder `bit_in::gamma`;
* the binary-interpolative coder `bic_encode_u16_cm`;
* the speculative block emitters `interpolated_encode_gap_block`,
  `interpolated_arr_bit_block` and their rollback to plain encodings;
* the zero/one run-length token emitter of `serializer::serialize` and the
  token dispatch of `deserializer::deserialize` and
  `serial_stream_iterator::next`;
* the stream-header handling of `bm::deserialize` and
  `deserializer<BV,DEC>::deserialize`;
* the GAP-block materialization `deseriaizer_base::read_gap_block`.

Machine integers are modelled as `Nat` with explicit `% 2 ^ 32` where the C
code relies on 32-bit wrap-around.  Byte streams are lists of naturals
(each `< 256`), word streams are lists of naturals (each `< 2 ^ 32`).
Functions declared in headers that are not part of the provided sources
(bmfunc.h, bmutil.h, bm.h) are modelled from the specification and marked
as such in their doc comments.
-/

namespace BMSerial

/-! ## Bit-level utilities -/

/-- Truncate to an unsigned 32-bit value (C `unsigned` wrap-around). -/
def w32 (x : ℕ) : ℕ := x % 2 ^ 32

/-- The low `n` bits of `x`, least-significant first, as a list of booleans.
This is the logical bit sequence a 32-bit accumulator word contributes to
the serialized bit stream. -/
def lowBits (n x : ℕ) : List Bool := (List.range n).map (fun i => x.testBit i)

/-- Number of set bits among the low 64 bits (`bm::word_bitcount64`,
modelled from the spec: population count of a 64-bit digest). -/
def popcount64 (x : ℕ) : ℕ := ((List.range 64).filter (fun i => x.testBit i)).length

/-- Count of trailing zero bits (`bm::bit_scan_fwd` / `bsf`, modelled from
the spec: index of the lowest set bit; 0 for input 0). -/
def ctz : ℕ → ℕ
  | 0 => 0
  | (n+1) =>
    if (n+1) % 2 = 1 then 0
    else ctz ((n+1) / 2) + 1
decreasing_by exact Nat.div_lt_self (Nat.succ_pos n) (by omega)

/-- Index of the most significant set bit (`bm::bit_scan_reverse32`,
modelled from the spec: for `v ≥ 1` this is `⌊log2 v⌋`). -/
def bitScanReverse32 (v : ℕ) : ℕ := Nat.log2 v

/-- Little-endian byte image of a 16-bit value (`encoder::put_16`). -/
def bytes16le (x : ℕ) : List ℕ := [x % 256, x / 256 % 256]

/-- Little-endian byte image of a 32-bit value (`encoder::put_32`). -/
def bytes32le (x : ℕ) : List ℕ :=
  [x % 256, x / 256 % 256, x / 65536 % 256, x / 16777216 % 256]

/-- Little-endian byte image of a 64-bit value (`encoder::put_64`). -/
def bytes64le (x : ℕ) : List ℕ := bytes32le (x % 2 ^ 32) ++ bytes32le (x / 2 ^ 32)

/-! ## The bit-stream writer `bit_out` (encoding.h)

`bit_out` keeps a 32-bit accumulator `accum_` holding `used_bits_` pending
bits (bit 0 of the accumulator is the oldest pending bit) and flushes the
full accumulator through `encoder::put_32`.  The state below records the
flushed 32-bit words together with the accumulator. -/

structure BitOutSt where
  out  : List ℕ
  used : ℕ
  acc  : ℕ
deriving Repr, DecidableEq

/-- Fresh `bit_out` (constructor: `used_bits_ = 0`, `accum_ = 0`). -/
def BitOutSt.fresh : BitOutSt := ⟨[], 0, 0⟩

/-- `bit_out::flush`: flush the incomplete accumulator word if non-empty. -/
def BitOutSt.flushFinal (s : BitOutSt) : BitOutSt :=
  if s.used ≠ 0 then ⟨s.out ++ [s.acc], 0, 0⟩ else s

/-- The logical bit sequence represented by a `bit_out` state: all flushed
words (32 bits each, LSB first) followed by the pending accumulator bits. -/
def streamBits (s : BitOutSt) : List Bool :=
  s.out.flatMap (lowBits 32) ++ lowBits s.used s.acc

/-- Well-formedness of a `bit_out` state: at most 32 pending bits and no
stale accumulator bits above `used`. -/
def BitOutSt.wf (s : BitOutSt) : Prop := s.used ≤ 32 ∧ s.acc < 2 ^ s.used

/-- `bit_out::put_bits(value, count)` for `1 ≤ count ≤ 32`: mask `value` to
its low `count` bits and shift them into the accumulator, flushing full
32-bit words.  The C loop runs at most twice for `count ≤ 32` (after a
flush the accumulator has 32 free bits), so it is unrolled here; the
trailing `used == 32` check of the source is the final flush test. -/
def putBits (s : BitOutSt) (value count : ℕ) : BitOutSt :=
  let v := value % 2 ^ count
  let acc := w32 (s.acc ||| (v <<< s.used))
  if count ≤ 32 - s.used then
    if s.used + count = 32 then ⟨s.out ++ [acc], 0, 0⟩
    else ⟨s.out, s.used + count, acc⟩
  else
    -- second loop iteration: accumulator flushed, remaining bits fit
    let free := 32 - s.used
    ⟨s.out ++ [acc], count - free, v >>> free⟩

/-- `bit_out::gamma(value)` (encoding.h:1005): emit `⌊log2 v⌋` zero bits
through the accumulator, then the border 1 bit, then the low `⌊log2 v⌋`
bits of `value`.  Faithfully follows the source's three accumulator
phases; the inner zero-word loop emits `count / 32` full zero words,
and the payload loop, like `put_bits`, runs at most twice. -/
def gammaOut (s : BitOutSt) (value : ℕ) : BitOutSt :=
  let logv := bitScanReverse32 value
  -- phase 1: `logv` zero bits
  let s1 : BitOutSt :=
    if 32 - s.used ≤ logv then
      let count := logv - (32 - s.used)
      ⟨s.out ++ [s.acc] ++ List.replicate (count / 32) 0, count % 32, 0⟩
    else ⟨s.out, s.used + logv, s.acc⟩
  -- the border 1 bit
  let acc := w32 (s1.acc ||| (1 <<< s1.used))
  let s2 : BitOutSt :=
    if s1.used + 1 = 32 then ⟨s1.out ++ [acc], 0, 0⟩
    else ⟨s1.out, s1.used + 1, acc⟩
  -- phase 2: the low `logv` bits of `value`
  if logv = 0 then s2
  else
    let v := value % 2 ^ logv
    let acc2 := w32 (s2.acc ||| (v <<< s2.used))
    if logv ≤ 32 - s2.used then ⟨s2.out, s2.used + logv, acc2⟩
    else
      let free := 32 - s2.used
      ⟨s2.out ++ [acc2], logv - free, v >>> free⟩

/-- The Elias-gamma bit pattern of `v ≥ 1` as stated by the specification:
`⌊log2 v⌋` zero bits, a single 1 bit, then the low `⌊log2 v⌋` bits of `v`
least-significant first. -/
def gammaBits (v : ℕ) : List Bool :=
  List.replicate (Nat.log2 v) false ++ true :: lowBits (Nat.log2 v) v

/-! ## The bit-stream reader `bit_in` (encoding.h)

`bit_in` pulls 32-bit words from a byte decoder via `get_32` and keeps the
not-yet-consumed bits of the current word in `accum_`, already shifted so
that the next stream bit is bit 0; `used_bits_` counts the consumed bits of
the current word.  The word source is modelled as the list of 32-bit words
the underlying decoder would deliver. -/

structure BitInSt where
  src  : List ℕ
  used : ℕ
  acc  : ℕ
deriving Repr, DecidableEq

/-- `bit_in` constructor: `used_bits_` starts at 32, forcing a refill. -/
def BitInSt.start (src : List ℕ) : BitInSt := ⟨src, 32, 0⟩

/-- The not-yet-consumed bit sequence of a `bit_in` state. -/
def bitsIn (s : BitInSt) : List Bool :=
  lowBits (32 - s.used) s.acc ++ s.src.flatMap (lowBits 32)

/-- Well-formedness of a `bit_in` state: the accumulator holds exactly the
`32 - used` remaining bits of the current word, and the source delivers
32-bit words. -/
def BitInSt.wf (s : BitInSt) : Prop :=
  s.used ≤ 32 ∧ s.acc < 2 ^ (32 - s.used) ∧ ∀ w ∈ s.src, w < 2 ^ 32

/-- `block_set_table<true>::_left[n]` (bm.h, not in src): modelled from its
uses as the mask of bits `0..n` inclusive. -/
def leftMask (n : ℕ) : ℕ := 2 ^ (n + 1) - 1

/-- The zero-scanning loop of `bit_in::gamma` (encoding.h:1637): while the
accumulator is all-zero, count its remaining bits as zeros and refill from
the source; then count the trailing zeros of the first non-zero word and
shift past them.  Returns `(zero_bits, accum, used, src)`.  A refill from
an exhausted source would be an out-of-range read in C; the model returns
a resting state that the correctness theorem's hypotheses exclude. -/
def scanZeros (acc used zb : ℕ) (src : List ℕ) : ℕ × ℕ × ℕ × List ℕ :=
  if acc = 0 then
    match src with
    | [] => (zb + (32 - used), 0, 0, [])
    | w :: t => scanZeros w 0 (zb + (32 - used)) t
  else
    let idx := ctz acc
    (zb + idx, acc >>> idx, used + idx, src)
termination_by src.length

/-- The body of `bit_in::gamma` after the initial refill (encoding.h:1636):
scan the unary zero prefix, consume the border 1 bit, then read the
`zero_bits` payload bits (possibly split across two words) and return
them together with the implied leading 1 bit. -/
def gammaInCore (acc0 used0 : ℕ) (src0 : List ℕ) : ℕ × BitInSt :=
  -- unary zero prefix
  let z := scanZeros acc0 used0 0 src0
  let zeroBits := z.1
  -- eat the border bit
  let b0 : ℕ × ℕ × List ℕ :=
    if z.2.2.1 = 32 then
      match z.2.2.2 with
      | [] => (0, 1, [])
      | w :: t => (w >>> 1, 1, t)
    else (z.2.1 >>> 1, z.2.2.1 + 1, z.2.2.2)
  let acc := b0.1
  let used := b0.2.1
  let src := b0.2.2
  -- read the value
  let free := 32 - used
  if zeroBits ≤ free then
    (w32 ((acc &&& leftMask zeroBits) ||| (1 <<< zeroBits)),
     ⟨src, used + zeroBits, acc >>> zeroBits⟩)
  else if used = 32 then
    match src with
    | [] => (0, ⟨[], 32, 0⟩)
    | w :: t =>
      (w32 ((w &&& leftMask zeroBits) ||| (1 <<< zeroBits)),
       ⟨t, zeroBits, w >>> zeroBits⟩)
  else
    match src with
    | [] => (0, ⟨[], used, acc⟩)
    | w :: t =>
      let used2 := zeroBits - free
      (w32 (acc ||| (((w &&& leftMask used2) <<< free) ||| (1 <<< zeroBits))),
       ⟨t, used2, w >>> used2⟩)

/-- `bit_in::gamma` (encoding.h:1626): refill if the current word is
exhausted (`used_bits_ == 32`), then run the scanning body. -/
def gammaIn (s : BitInSt) : ℕ × BitInSt :=
  if s.used = 32 then
    match s.src with
    | [] => gammaInCore 0 0 []
    | w :: t => gammaInCore w 0 t
  else gammaInCore s.acc s.used s.src

/-! ## The binary interpolative coder `bic_encode_u16_cm` (encoding.h:1236) -/

/-- Unsigned 32-bit image of a signed intermediate value (C unsigned
arithmetic wrap-around). -/
def u32of (z : ℤ) : ℕ := (z % (2 ^ 32 : ℤ)).toNat

/-- Unsigned 16-bit image (C `gap_word_t` casts). -/
def u16of (z : ℤ) : ℕ := (z % (2 ^ 16 : ℤ)).toNat

/-- `bit_out::bic_encode_u16_cm` (encoding.h:1236): center-minimal binary
interpolative coding of `sz` elements of `arr` within `[lo, hi]`.  The
source eliminates the tail recursion by hand; here both halves are
recursive calls on strictly smaller sizes. -/
def bicEncode (s : BitOutSt) (arr : List ℕ) (sz lo hi : ℕ) : BitOutSt :=
  if hsz : sz = 0 then s
  else
    let mid := sz / 2
    let val := arr.getD mid 0
    let r := u32of ((hi : ℤ) - lo - sz + 1)
    let s1 :=
      if r ≠ 0 then
        let value := u32of ((val : ℤ) - lo - mid)
        let n := w32 (r + 1)
        let logv := bitScanReverse32 n
        let c := u32of ((2 ^ (logv + 1) : ℤ) - n)
        let half_c := c >>> 1
        let half_r := r >>> 1
        let lo1 : ℤ := (half_r : ℤ) - half_c - (n % 2)
        let hi1 := half_r + half_c
        let nbits := logv + (if (value : ℤ) ≤ lo1 ∨ hi1 < value then 1 else 0)
        putBits s value nbits
      else s
    let s2 := bicEncode s1 (arr.take mid) mid lo (u16of ((val : ℤ) - 1))
    bicEncode s2 (arr.drop (mid + 1)) (sz - (mid + 1)) (u16of ((val : ℤ) + 1)) hi
termination_by sz
decreasing_by
  · exact Nat.div_lt_self (Nat.pos_of_ne_zero hsz) (by omega)
  · omega

/-! ## Serialization stream block type constants (bmserial.h:707) -/

def set_block_end               : ℕ := 0
def set_block_1zero             : ℕ := 1
def set_block_1one              : ℕ := 2
def set_block_8zero             : ℕ := 3
def set_block_8one              : ℕ := 4
def set_block_16zero            : ℕ := 5
def set_block_16one             : ℕ := 6
def set_block_32zero            : ℕ := 7
def set_block_32one             : ℕ := 8
def set_block_azero             : ℕ := 9
def set_block_aone              : ℕ := 10
def set_block_bit               : ℕ := 11
def set_block_sgapbit           : ℕ := 12
def set_block_sgapgap           : ℕ := 13
def set_block_gap               : ℕ := 14
def set_block_gapbit            : ℕ := 15
def set_block_arrbit            : ℕ := 16
def set_block_bit_interval      : ℕ := 17
def set_block_arrgap            : ℕ := 18
def set_block_bit_1bit          : ℕ := 19
def set_block_gap_egamma        : ℕ := 20
def set_block_arrgap_egamma     : ℕ := 21
def set_block_bit_0runs         : ℕ := 22
def set_block_arrgap_egamma_inv : ℕ := 23
def set_block_arrgap_inv        : ℕ := 24
def set_block_64zero            : ℕ := 25
def set_block_64one             : ℕ := 26
def set_block_gap_bienc         : ℕ := 27
def set_block_arrgap_bienc      : ℕ := 28
def set_block_arrgap_bienc_inv  : ℕ := 29
def set_block_arrbit_inv        : ℕ := 30
def set_block_arr_bienc         : ℕ := 31
def set_block_arr_bienc_inv     : ℕ := 32
def set_block_bitgap_bienc      : ℕ := 33
def set_block_bit_digest0       : ℕ := 34

/-- Words per bit block (`bm::set_block_size`, 2048 32-bit words). -/
def set_block_size : ℕ := 2048

/-- Words per digest wave (`bm::set_block_digest_wave_size` = 2048 / 64). -/
def set_block_digest_wave_size : ℕ := 32

/-- `bm::id_max32` = 0xFFFFFFFF. -/
def id_max32 : ℕ := 4294967295

/-- `bm::gap_max_bits` = 65536. -/
def gap_max_bits : ℕ := 65536

/-- `bm::gap_max_bits_cmrz` (bm.h, not in src): modelled from the spec as
the compression cut-off on the index-array length; its exact value does
not affect the verified properties. -/
def gap_max_bits_cmrz : ℕ := 32768

/-- `bm::gap_length` (bmfunc.h, not in src): modelled from the spec — the
number of valid 16-bit words of a GAP block (header included) is derivable
from the header word, whose bits 3..15 store `length - 1`. -/
def gapLength (g : List ℕ) : ℕ := (g.headD 0) >>> 3 + 1

/-! ## Speculative block emitters with rollback (bmserial.h) -/

/-- `serializer::interpolated_encode_gap_block` (bmserial.h:877): for GAP
length above 3, speculatively emit tag 27 + header + first endpoint + BIC
code of the remaining endpoints; if that is larger than the plain GAP
image, rewind (`set_pos`) and emit tag 14 + the raw endpoint words.
Returns the bytes the block contributes to the stream. -/
def interpolatedEncodeGapBlock (g : List ℕ) : List ℕ :=
  let len := gapLength g
  let plain := set_block_gap :: (g.take (len - 1)).flatMap bytes16le
  if 3 < len then
    let min_v := g.getD 1 0
    let headBytes := set_block_gap_bienc :: (bytes16le (g.headD 0) ++ bytes16le min_v)
    let bout := (bicEncode BitOutSt.fresh (g.drop 2) (len - 3) min_v 65535).flushFinal
    let specBytes := headBytes ++ bout.out.flatMap bytes32le
    if 2 * (len - 1) < specBytes.length then plain else specBytes
  else plain

/-- The island scan of `serializer::encode_bit_interval` (bmserial.h:1370):
length of the non-zero island continuing through isolated zero words that
are followed by a non-zero word at distance one or two. -/
def islandScan : List ℕ → ℕ
  | [] => 0
  | w :: t =>
    if w = 0 then
      match t with
      | [] => 0
      | w1 :: t1 => if w1 ≠ 0 ∨ t1.headD 0 ≠ 0 then 2 + islandScan t1 else 0
    else 1 + islandScan t

/-- The run body of `serializer::encode_bit_interval` (bmserial.h:1353):
alternating 16-bit run lengths, with the raw 32-bit words streamed for
non-zero runs. -/
def encBIbody : List ℕ → List ℕ
  | [] => []
  | w :: t =>
    if w = 0 then
      let z := 1 + (t.takeWhile (· == 0)).length
      bytes16le z ++ encBIbody (t.drop (z - 1))
    else
      let n := 1 + islandScan t
      bytes16le n ++ (w :: t.take (n - 1)).flatMap bytes32le ++ encBIbody (t.drop (n - 1))
termination_by l => l.length
decreasing_by
  all_goals simp only [List.length_cons]; rw [List.length_drop]; omega

/-- `serializer::encode_bit_interval` (bmserial.h:1344): tag 22, the start
run type, then the alternating run body. -/
def encodeBitInterval (blk : List ℕ) : List ℕ :=
  set_block_bit_0runs :: (if blk.headD 0 = 0 then 0 else 1) :: encBIbody blk

/-- `bm::bit_count_nonzero_size` (bmfunc.h, not in src): modelled from the
spec — the byte size of the 0-runs encoding of the block (each run a u16
length, each non-zero stretch also its words), excluding the tag byte. -/
def bitCountNonzeroSize (blk : List ℕ) : ℕ := (encodeBitInterval blk).length - 1

/-- `bm::calc_block_digest0` (bmfunc.h, not in src): modelled from the spec —
bit `w` of the 64-bit digest is set iff wave `w` (32 consecutive words) of
the block contains a non-zero word. -/
def calcBlockDigest0 (blk : List ℕ) : ℕ :=
  (List.range 64).foldr
    (fun w1 a =>
      if ((blk.drop (set_block_digest_wave_size * w1)).take
            set_block_digest_wave_size).any (· ≠ 0)
      then a ||| (1 <<< w1) else a) 0

/-- The wave-emission loop of `serializer::encode_bit_digest`
(bmserial.h:1416): for each set digest bit, lowest first, stream the 32
words of that wave; `d0 &= d0 - 1` clears the processed bit. -/
def digestWaves (blk : List ℕ) (d0 : ℕ) : List ℕ :=
  if h : d0 = 0 then []
  else
    let wave := ctz d0
    ((blk.drop (set_block_digest_wave_size * wave)).take
        set_block_digest_wave_size).flatMap bytes32le
      ++ digestWaves blk (d0 &&& (d0 - 1))
termination_by d0
decreasing_by
  have h1 : d0 &&& (d0 - 1) ≤ d0 - 1 := Nat.and_le_right
  omega

/-- `bit_model_d0_size_` as computed in `find_bit_best_encoding`
(bmserial.h:1072): `8 + 32 · popcount(d0) · sizeof(u32)` bytes. -/
def bitModelD0Size (d0 : ℕ) : ℕ := 8 + 32 * popcount64 d0 * 4

/-- `serializer::encode_bit_digest` (bmserial.h:1396): pick the cheaper of
the 0-runs form and the digest form (or the plain bit block when the
digest is all-ones and 0-runs does not pay off). -/
def encodeBitDigest (blk : List ℕ) (d0 : ℕ) : List ℕ :=
  if d0 ≠ 2 ^ 64 - 1 then
    if bitCountNonzeroSize blk < bitModelD0Size d0 then encodeBitInterval blk
    else set_block_bit_digest0 :: (bytes64le d0 ++ digestWaves blk d0)
  else
    if bitCountNonzeroSize blk < set_block_size * 4 then encodeBitInterval blk
    else set_block_bit :: blk.flatMap bytes32le

/-- One word's set-bit indices, then the rest of the block. -/
def blockSetBitsAux : List ℕ → ℕ → Bool → List ℕ
  | [], _, _ => []
  | w :: t, base, inv =>
    ((List.range 32).filter (fun b => w.testBit b ≠ inv)).map (base + ·)
      ++ blockSetBitsAux t (base + 32) inv

/-- `bm::bit_convert_to_arr` (bmfunc.h, not in src): modelled from the spec —
the sorted 16-bit indices of the set (or, inverted, clear) bits of the
block, empty when the count exceeds the compression cut-off. -/
def bitConvertToArr (blk : List ℕ) (inverted : Bool) : List ℕ :=
  let ids := blockSetBitsAux blk 0 inverted
  if gap_max_bits_cmrz < ids.length then [] else ids

/-- `serializer::interpolated_arr_bit_block` (bmserial.h:1613): convert the
block to an index array, speculatively emit tag 31/32 + min + max + size +
BIC code; roll back (`set_pos`) to `encode_bit_digest` when the code
reaches the raw block size or exceeds the digest-model size. -/
def interpolatedArrBitBlock (blk : List ℕ) (inverted : Bool) : List ℕ :=
  let arr := bitConvertToArr blk inverted
  let d0 := calcBlockDigest0 blk
  let fallback := encodeBitDigest blk d0
  if arr = [] then fallback
  else
    let scode := if inverted then set_block_arr_bienc_inv else set_block_arr_bienc
    let min_v := arr.headD 0
    let max_v := arr.getD (arr.length - 1) 0
    let bout := (bicEncode BitOutSt.fresh (arr.drop 1) (arr.length - 2) min_v max_v).flushFinal
    let specBytes := scode :: (bytes16le min_v ++ bytes16le max_v
        ++ bytes16le arr.length) ++ bout.out.flatMap bytes32le
    if set_block_size * 4 ≤ specBytes.length then fallback
    else if d0 ≠ 2 ^ 64 - 1 ∧ bitModelD0Size d0 < specBytes.length then fallback
    else specBytes

/-! ## Zero-run token emission (serializer::serialize, bmserial.h:1739)

When a run of `nb` all-zero blocks is found, the encoder emits the 7-bit
shortcut `0x80 | nb` when `1 < nb < 128`, otherwise one of the
`set_block_{1,8,16,32,64}zero` tokens via `BM_SER_NEXT_GRP`. -/

def encodeZeroRun (nb : ℕ) : List ℕ :=
  if 1 < nb ∧ nb < 128 then [(1 <<< 7) ||| nb]
  else if nb = 1 then [set_block_1zero]
  else if nb < 256 then [set_block_8zero, nb]
  else if nb < 65536 then set_block_16zero :: bytes16le nb
  else if nb < id_max32 then set_block_32zero :: bytes32le nb
  else set_block_64zero :: bytes64le nb

/-! ## Token dispatch of `deserializer<BV,DEC>::deserialize` (bmserial.h:2645)

The block loop reads a token byte and either terminates, skips blocks,
fills blocks, or decodes a bit/GAP block.  The step below captures, for one
token, the next block index, the bytes consumed for index bookkeeping, and
the decode category; content decoding is dispatched further and not
consumed here.  `i += nb - 1` followed by the loop increment nets to
`i + nb` (the `nb = 0` unsigned wrap-around corner is not modelled). -/

inductive SErr where
  | serialFormat
  | platform
deriving Repr, DecidableEq

inductive DStep where
  | finish
  | skipTo (nextIdx : ℕ) (consumed : ℕ)
  | fillTo (nextIdx : ℕ) (consumed : ℕ)
  | fillAll
  | oneBit (consumed : ℕ)
  | bitBlock (tag : ℕ)
  | gapBlock (tag : ℕ)
deriving Repr, DecidableEq

/-- Little-endian readers of the byte stream (`decoder::get_16/32/64`). -/
def read16 (b : List ℕ) : ℕ := b.getD 0 0 + 256 * b.getD 1 0

def read32 (b : List ℕ) : ℕ :=
  b.getD 0 0 + 256 * b.getD 1 0 + 65536 * b.getD 2 0 + 16777216 * b.getD 3 0

def read64 (b : List ℕ) : ℕ := read32 b + 2 ^ 32 * read32 (b.drop 4)

/-- One token step of `deserializer::deserialize` at block index `i`;
`btype` is the token byte, `rest` the following bytes, `bm64` whether the
reader was built with `BM64ADDR`. -/
def deserializerTokenStep (bm64 : Bool) (i btype : ℕ) (rest : List ℕ) :
    Except SErr DStep :=
  if btype.testBit 7 then .ok (.skipTo (i + (btype &&& 127)) 1)
  else if btype = set_block_azero ∨ btype = set_block_end then .ok .finish
  else if btype = set_block_1zero then .ok (.skipTo (i + 1) 1)
  else if btype = set_block_8zero then .ok (.skipTo (i + rest.getD 0 0) 2)
  else if btype = set_block_16zero then .ok (.skipTo (i + read16 rest) 3)
  else if btype = set_block_32zero then .ok (.skipTo (i + read32 rest) 5)
  else if btype = set_block_64zero then
    if bm64 then .ok (.skipTo (i + read64 rest) 9) else .error .serialFormat
  else if btype = set_block_aone then .ok .fillAll
  else if btype = set_block_1one then .ok (.fillTo (i + 1) 1)
  else if btype = set_block_8one then .ok (.fillTo (i + rest.getD 0 0) 2)
  else if btype = set_block_16one then .ok (.fillTo (i + read16 rest) 3)
  else if btype = set_block_32one then .ok (.fillTo (i + read32 rest) 5)
  else if btype = set_block_64one then
    if bm64 then .ok (.fillTo (i + read64 rest) 9) else .error .serialFormat
  else if btype = set_block_bit ∨ btype = set_block_bit_interval
      ∨ btype = set_block_bit_0runs ∨ btype = set_block_arrbit then
    .ok (.bitBlock btype)
  else if btype = set_block_bit_1bit then .ok (.oneBit 3)
  else if btype = set_block_gap ∨ btype = set_block_gapbit
      ∨ btype = set_block_arrgap ∨ btype = set_block_gap_egamma
      ∨ btype = set_block_arrgap_egamma ∨ btype = set_block_arrgap_egamma_inv
      ∨ btype = set_block_arrgap_inv ∨ btype = set_block_gap_bienc
      ∨ btype = set_block_arrgap_bienc ∨ btype = set_block_arrgap_bienc_inv then
    .ok (.gapBlock btype)
  else if btype = set_block_arr_bienc ∨ btype = set_block_arrbit_inv
      ∨ btype = set_block_arr_bienc_inv ∨ btype = set_block_bitgap_bienc
      ∨ btype = set_block_bit_digest0 then
    .ok (.bitBlock btype)
  else .error .serialFormat

/-! ## `serial_stream_iterator<DEC>::next` in state `e_blocks` (bmserial.h:2981) -/

inductive ITrans where
  | endOfStream
  | zeroBlocks (monoCnt : ℕ) (consumed : ℕ)
  | oneBlocksAll
  | oneBlocks (monoCnt : ℕ) (consumed : ℕ)
  | bitBlockState (tag : ℕ)
  | gapBlockState (tag : ℕ) (readsHead : Bool)
deriving Repr, DecidableEq

/-- The transition `serial_stream_iterator::next` performs in state
`e_blocks` on token byte `btype` (bmserial.h:2989-3095).  Counted
`mono_block_cnt_` values follow the source (`n - 1` semantics); no case
exists for `set_block_64zero` / `set_block_64one`, which therefore fall
into the `default:` branch and raise the serial-format error. -/
def streamIterNextBlocks (btype : ℕ) (rest : List ℕ) : Except SErr ITrans :=
  if btype.testBit 7 then .ok (.zeroBlocks ((btype &&& 127) - 1) 1)
  else if btype = set_block_azero ∨ btype = set_block_end then .ok .endOfStream
  else if btype = set_block_1zero then .ok (.zeroBlocks 0 1)
  else if btype = set_block_8zero then .ok (.zeroBlocks (rest.getD 0 0 - 1) 2)
  else if btype = set_block_16zero then .ok (.zeroBlocks (read16 rest - 1) 3)
  else if btype = set_block_32zero then .ok (.zeroBlocks (read32 rest - 1) 5)
  else if btype = set_block_aone then .ok .oneBlocksAll
  else if btype = set_block_1one then .ok (.oneBlocks 0 1)
  else if btype = set_block_8one then .ok (.oneBlocks (rest.getD 0 0 - 1) 2)
  else if btype = set_block_16one then .ok (.oneBlocks (read16 rest - 1) 3)
  else if btype = set_block_32one then .ok (.oneBlocks (read32 rest - 1) 5)
  else if btype = set_block_bit ∨ btype = set_block_bit_interval
      ∨ btype = set_block_bit_0runs ∨ btype = set_block_arrbit
      ∨ btype = set_block_arrbit_inv ∨ btype = set_block_arr_bienc
      ∨ btype = set_block_arr_bienc_inv ∨ btype = set_block_bitgap_bienc
      ∨ btype = set_block_bit_digest0 then
    .ok (.bitBlockState btype)
  else if btype = set_block_gap ∨ btype = set_block_gap_egamma
      ∨ btype = set_block_gap_bienc then
    .ok (.gapBlockState btype true)
  else if btype = set_block_arrgap ∨ btype = set_block_arrgap_egamma
      ∨ btype = set_block_arrgap_egamma_inv ∨ btype = set_block_arrgap_inv
      ∨ btype = set_block_bit_1bit ∨ btype = set_block_arrgap_bienc
      ∨ btype = set_block_arrgap_bienc_inv then
    .ok (.gapBlockState btype false)
  else if btype = set_block_gapbit then .ok (.gapBlockState btype false)
  else .error .serialFormat

/-! ## Header handling (bmserial.h:2011 `bm::deserialize`,
bmserial.h:2548 `deserializer::deserialize`) -/

/-- Serialization header flag bits (`serialization_header_mask`). -/
def BM_HM_DEFAULT : ℕ := 1
def BM_HM_RESIZE  : ℕ := 2
def BM_HM_ID_LIST : ℕ := 4
def BM_HM_NO_BO   : ℕ := 8
def BM_HM_NO_GAPL : ℕ := 16
def BM_HM_64_BIT  : ℕ := 32

inductive DecChoice where
  | native
  | swapOnBig
  | swapOnLittle
deriving Repr, DecidableEq

/-- `bm::deserialize` (bmserial.h:2011): read the flag byte and, unless
`BM_HM_NO_BO`, the byte-order byte; pick the native decoder when the
stream byte order equals the current machine byte order, otherwise pick
the byte-swapping decoder for the current machine byte order
(`switch (bo_current)`).  `boCurrent` is the machine byte order
(0 = big endian, 1 = little endian, as `bm::ByteOrder`). -/
def bmDeserializeChoice (boCurrent : ℕ) (bytes : List ℕ) : Except SErr DecChoice :=
  let headerFlag := bytes.getD 0 0
  let bo := if ¬headerFlag.testBit 3 then bytes.getD 1 0 else boCurrent
  if boCurrent = bo then .ok .native
  else if boCurrent = 0 then .ok .swapOnBig
  else if boCurrent = 1 then .ok .swapOnLittle
  else .error .platform

/-- Result of the header phase of `deserializer::deserialize`: the kind of
body that follows and the byte position of the first token. -/
inductive HeaderRes where
  | idList (pos : ℕ)
  | blocks (pos : ℕ)
deriving Repr, DecidableEq

/-- The header phase of `deserializer<BV,DEC>::deserialize`
(bmserial.h:2562-2639): read the flag byte, skip the byte-order byte
without inspecting it, reject 64-bit streams on a 32-bit reader, handle
the legacy ID-list framing, skip the GAP-level words, and read the
optional resize size. -/
def deserializerHeader (bm64 : Bool) (bytes : List ℕ) : Except SErr HeaderRes :=
  let flag := bytes.getD 0 0
  let p1 := if ¬flag.testBit 3 then 2 else 1
  if flag.testBit 5 ∧ ¬bm64 then .error .serialFormat
  else if flag.testBit 2 then
    let p2 := if flag.testBit 1 then (if flag.testBit 5 then p1 + 8 else p1 + 4) else p1
    .ok (.idList p2)
  else
    let p2 := if ¬flag.testBit 4 then p1 + 8 else p1
    if flag.testBit 1 then
      if flag.testBit 5 ∧ ¬bm64 then .error .serialFormat
      else .ok (.blocks (if flag.testBit 5 then p2 + 8 else p2 + 4))
    else .ok (.blocks p2)

/-! ## GAP-block materialization (`deseriaizer_base::read_gap_block`,
bmserial.h:2236)

A GAP block is a list whose head is the header word (bit 0 the start
value, bits 3..15 the length minus one) followed by the strictly
increasing run endpoints, the last of which is 65535.  The helper
functions of bmfunc.h used by the decoder are not part of the provided
sources and are modelled from the specification. -/

/-- Run endpoints generated by a strictly increasing list of set bits,
continuing from current element `c`: consecutive values extend the
current 1-run; a jump closes the 1-run at `c` and the 0-run at `d - 1`.
The terminal endpoint 65535 is always appended. -/
def gapEndsAux (c : ℕ) : List ℕ → List ℕ
  | [] => if c = 65535 then [65535] else [c, 65535]
  | d :: t => if d = c + 1 then gapEndsAux d t else c :: (d - 1) :: gapEndsAux d t

/-- `bm::gap_set_array` and the `gap_set_all`/`gap_add_value` loops
(bmfunc.h, not in src): modelled from the spec — the GAP block encoding
exactly the given strictly increasing set of bit indices.  The header
word stores the length minus one in bits 3.. and the start value in
bit 0. -/
def gapFromArr : List ℕ → List ℕ
  | [] => [1 <<< 3, 65535]
  | a :: t =>
    let ends := (if a = 0 then [] else [a - 1]) ++ gapEndsAux a t
    (ends.length <<< 3 + (if a = 0 then 1 else 0)) :: ends

/-- `bm::gap_invert` (bmfunc.h, not in src): modelled from the spec — flips
the start value in the header; the endpoints are unchanged. -/
def gapInvert : List ℕ → List ℕ
  | [] => []
  | h :: t => (h ^^^ 1) :: t

/-- The prefix-sum reconstruction of `read_id_list` for the Elias-gamma
encoded arrays (bmserial.h:2069): the first decoded value minus one, then
running 16-bit sums of the following deltas. -/
def egammaIdsAux (prev : ℕ) : List ℕ → List ℕ
  | [] => []
  | v :: t =>
    let cur := (prev + v) % 65536
    cur :: egammaIdsAux cur t

def egammaIds : List ℕ → List ℕ
  | [] => []
  | v :: t =>
    let first := u16of ((v : ℤ) - 1)
    first :: egammaIdsAux first t

/-- `read_gap_block`, case `set_block_gap` (bmserial.h:2245): header word,
`len - 1` raw endpoints from the stream, then the forced terminal
endpoint 65535. -/
def readGapBlockPlain (gapHead : ℕ) (ws : List ℕ) : List ℕ :=
  let len := gapHead >>> 3
  gapHead :: (ws.take (len - 1) ++ [gap_max_bits - 1])

/-- `read_gap_block`, case `set_block_bit_1bit` (bmserial.h:2254):
`gap_set_all(0)` then `gap_add_value(bit_idx)`. -/
def readGapBlockOneBit (bitIdx : ℕ) : List ℕ := gapFromArr [bitIdx]

/-- `read_gap_block`, array cases (bmserial.h:2261-2284): materialize the
decoded id list as a GAP block, then `gap_invert` for the inverted
variants (bmserial.h:2331). -/
def readGapBlockArr (ids : List ℕ) (inv : Bool) : List ℕ :=
  let g := gapFromArr ids
  if inv then gapInvert g else g

/-- `read_gap_block`, case `set_block_gap_egamma` (bmserial.h:2286):
header word, `(head >> 3) - 1` prefix-summed gamma values, forced
terminal endpoint. -/
def readGapBlockEgamma (gapHead : ℕ) (vals : List ℕ) : List ℕ :=
  let len := gapHead >>> 3 - 1
  gapHead :: ((egammaIds vals).take len ++ [gap_max_bits - 1])

/-- `read_gap_block`, case `set_block_gap_bienc` (bmserial.h:2311): header
word, the explicit minimum, `(head >> 3) - 2` BIC-decoded endpoints,
forced terminal endpoint. -/
def readGapBlockBienc (gapHead minV : ℕ) (vals : List ℕ) : List ℕ :=
  let len := gapHead >>> 3
  gapHead :: minV :: (vals.take (len - 2) ++ [gap_max_bits - 1])

/-- Well-formed GAP block: length matches the header, endpoints strictly
increasing and bounded, last endpoint 65535. -/
def wellFormedGap (g : List ℕ) : Prop :=
  g.length = gapLength g ∧ (g.drop 1).Chain' (· < ·)
    ∧ (g.drop 1).getLast? = some (gap_max_bits - 1)
    ∧ ∀ e ∈ g.drop 1, e < gap_max_bits

/-! # Theorems -/

/-! ## Bit-list lemmas -/

theorem lowBits_length (n x : ℕ) : (lowBits n x).length = n := by
  simp [lowBits]

theorem lowBits_zero (x : ℕ) : lowBits 0 x = [] := by
  simp [lowBits]

theorem lowBits_snoc (n x : ℕ) :
    lowBits (n + 1) x = lowBits n x ++ [x.testBit n] := by
  simp [lowBits, List.range_succ]

theorem lowBits_zero_val (n : ℕ) : lowBits n 0 = List.replicate n false := by
  simp only [lowBits]
  induction n with
  | zero => simp
  | succ k ih => rw [List.range_succ]; simp [ih, List.replicate_succ']

theorem lowBits_add_shift (m n x : ℕ) :
    lowBits (m + n) x = lowBits m x ++ lowBits n (x >>> m) := by
  induction n with
  | zero => simp [lowBits_zero]
  | succ k ih =>
    rw [show m + (k + 1) = (m + k) + 1 by omega, lowBits_snoc, ih, lowBits_snoc,
      List.append_assoc]
    congr 2
    rw [Nat.testBit_shiftRight, Nat.add_comm m k]

theorem lowBits_mod_two_pow (n m x : ℕ) (h : n ≤ m) :
    lowBits n (x % 2 ^ m) = lowBits n x := by
  simp only [lowBits]
  refine List.map_congr_left ?_
  intro i hi
  rw [List.mem_range] at hi
  rw [Nat.testBit_mod_two_pow]
  simp [show i < m by omega]

theorem lowBits_of_lt (n k x : ℕ) (h : x < 2 ^ n) :
    lowBits (n + k) x = lowBits n x ++ List.replicate k false := by
  rw [lowBits_add_shift, Nat.shiftRight_eq_div_pow, Nat.div_eq_of_lt h, lowBits_zero_val]

theorem lowBits_or_shiftLeft (m n a b : ℕ) (ha : a < 2 ^ m) (h : m ≤ n) :
    lowBits n (a ||| (b <<< m)) = lowBits m a ++ lowBits (n - m) b := by
  have hsplit := lowBits_add_shift m (n - m) (a ||| (b <<< m))
  rw [show m + (n - m) = n by omega] at hsplit
  rw [hsplit]
  congr 1
  · refine List.map_congr_left ?_
    intro i hi
    rw [List.mem_range] at hi
    rw [Nat.testBit_or, Nat.testBit_shiftLeft]
    simp [show ¬(m ≤ i) by omega]
  · refine List.map_congr_left ?_
    intro i hi
    rw [Nat.testBit_shiftRight, Nat.testBit_or, Nat.testBit_shiftLeft]
    have hae : a.testBit (m + i) = false :=
      Nat.testBit_lt_two_pow (lt_of_lt_of_le ha (Nat.pow_le_pow_right (by omega) (by omega)))
    simp [hae, show m ≤ m + i by omega, show m + i - m = i by omega]

theorem or_lt_two_pow (a b n : ℕ) (ha : a < 2 ^ n) (hb : b < 2 ^ n) :
    a ||| b < 2 ^ n := Nat.or_lt_two_pow ha hb

theorem shiftLeft_lt_two_pow (b m n : ℕ) (hb : b < 2 ^ n) (h : m + n ≤ 32) :
    b <<< m < 2 ^ 32 := by
  rw [Nat.shiftLeft_eq]
  calc b * 2 ^ m < 2 ^ n * 2 ^ m := by
        exact Nat.mul_lt_mul_of_lt_of_le hb (le_refl _) (by positivity)
    _ = 2 ^ (n + m) := by rw [← pow_add]
    _ ≤ 2 ^ 32 := Nat.pow_le_pow_right (by omega) (by omega)

theorem streamBits_mk (out : List ℕ) (used acc : ℕ) :
    streamBits ⟨out, used, acc⟩ = out.flatMap (lowBits 32) ++ lowBits used acc := rfl

theorem flatMap_lowBits_append (o1 o2 : List ℕ) :
    (o1 ++ o2).flatMap (lowBits 32) = o1.flatMap (lowBits 32) ++ o2.flatMap (lowBits 32) := by
  simp

theorem w32_of_lt (x : ℕ) (h : x < 2 ^ 32) : w32 x = x := Nat.mod_eq_of_lt h

theorem one_shiftLeft_lt (m n : ℕ) (h : m < n) : 1 <<< m < 2 ^ n := by
  rw [Nat.shiftLeft_eq, one_mul]
  exact Nat.pow_lt_pow_right (by omega) h

theorem lowBits_one : lowBits 1 1 = [true] := by decide

theorem lowBits_one_bit (m n : ℕ) (h : m < n) :
    lowBits n (1 <<< m) =
      List.replicate m false ++ true :: List.replicate (n - m - 1) false := by
  have h0 : (1 : ℕ) <<< m = 0 ||| (1 <<< m) := by simp
  rw [h0, lowBits_or_shiftLeft m n 0 1 (by positivity) (by omega), lowBits_zero_val]
  congr 1
  rw [show n - m = 1 + (n - m - 1) by omega, lowBits_of_lt 1 _ 1 (by norm_num), lowBits_one]
  simp only [List.singleton_append]
  congr 2
  omega

theorem w32_lt (x : ℕ) : w32 x < 2 ^ 32 := Nat.mod_lt _ (by positivity)

theorem w32_le (x : ℕ) : w32 x ≤ x := Nat.mod_le _ _

theorem shiftLeft_lt_pow (x k L : ℕ) (h : x < 2 ^ L) : x <<< k < 2 ^ (L + k) := by
  rw [Nat.shiftLeft_eq, pow_add]
  exact Nat.mul_lt_mul_of_lt_of_le h (le_refl _) (by positivity)

theorem lowBits_w32_or_shift (m n a b : ℕ) (ha : a < 2 ^ m) (hmn : m ≤ n) (hn : n ≤ 32) :
    lowBits n (w32 (a ||| b <<< m)) = lowBits m a ++ lowBits (n - m) b := by
  simp only [w32]
  rw [lowBits_mod_two_pow n 32 _ hn, lowBits_or_shiftLeft m n a b ha hmn]

theorem lowBits_pos_one (k : ℕ) (h : 1 ≤ k) :
    lowBits k 1 = true :: List.replicate (k - 1) false := by
  rw [show k = 1 + (k - 1) by omega, lowBits_of_lt 1 _ 1 (by norm_num), lowBits_one]
  simp only [List.singleton_append]
  congr 2
  omega

theorem shiftRight_lt_pow (x k L : ℕ) (h : x < 2 ^ L) : x >>> k < 2 ^ (L - k) := by
  rw [Nat.shiftRight_eq_div_pow]
  rcases le_or_lt k L with hk | hk
  · have h2 : 2 ^ (L - k) * 2 ^ k = 2 ^ L := by rw [← pow_add]; congr 1; omega
    rw [Nat.div_lt_iff_lt_mul (by positivity), h2]
    exact h
  · have h2 : x < 2 ^ k := lt_of_lt_of_le h (Nat.pow_le_pow_right (by omega) (by omega))
    rw [Nat.div_eq_of_lt h2]
    positivity

set_option maxHeartbeats 2000000 in
theorem gammaOut_streamBits (s : BitOutSt) (v : ℕ) (hwf : s.wf) (hv1 : 1 ≤ v) (hv2 : v < 2 ^ 32) :
    streamBits (gammaOut s v) = streamBits s ++ gammaBits v ∧ (gammaOut s v).wf := by
  obtain ⟨hu, ha⟩ := hwf
  have hL : Nat.log2 v < 32 := (Nat.log2_lt (by omega)).mpr hv2
  have hvm : v % 2 ^ Nat.log2 v < 2 ^ Nat.log2 v := Nat.mod_lt _ (by positivity)
  have hmodbits : lowBits (Nat.log2 v) (v % 2 ^ Nat.log2 v) = lowBits (Nat.log2 v) v :=
    lowBits_mod_two_pow _ _ v (le_refl _)
  have h32a : lowBits 32 s.acc = lowBits s.used s.acc ++ List.replicate (32 - s.used) false := by
    have h' := lowBits_of_lt s.used (32 - s.used) s.acc ha
    rwa [show s.used + (32 - s.used) = 32 by omega] at h'
  simp only [gammaOut, bitScanReverse32, streamBits, gammaBits, BitOutSt.wf]
  split_ifs with h1 h2 h3 h4 h5 h6 h7 h8 h9 h10 h11
  all_goals dsimp only at *
  -- leaf 1: L = 0, phase-1 flush, border flush: contradictory
  · exfalso; omega
  -- leaf 2: L = 0, phase-1 flush, no border flush
  · have hu32 : s.used = 32 := by omega
    have hc : Nat.log2 v - (32 - s.used) = 0 := by omega
    rw [hc]
    refine ⟨?_, by norm_num, by norm_num [w32, Nat.shiftLeft_zero, Nat.zero_or]⟩
    norm_num
    rw [w32_of_lt 1 (by norm_num), lowBits_one, h1, hu32, lowBits_zero]
    simp
  -- leaf 3: L = 0, no phase-1 flush, border flush (s.used = 31)
  · simp only [h1, Nat.add_zero] at h4 ⊢
    have hu31 : s.used = 31 := by omega
    refine ⟨?_, by omega, by positivity⟩
    rw [flatMap_lowBits_append]
    simp only [List.flatMap_cons, List.flatMap_nil, List.append_nil, List.append_assoc,
      List.replicate_zero, List.nil_append, lowBits_zero]
    congr 1
    rw [lowBits_w32_or_shift s.used 32 s.acc 1 ha (by omega) (by omega), hu31,
      show (32:ℕ) - 31 = 1 by norm_num, lowBits_one]
  -- leaf 4: L = 0, no phase-1 flush, no border flush
  · simp only [h1, Nat.add_zero] at h4 ⊢
    have hb : s.acc ||| 1 <<< s.used < 2 ^ (s.used + 1) :=
      Nat.or_lt_two_pow (lt_of_lt_of_le ha (Nat.pow_le_pow_right (by omega) (by omega)))
        (one_shiftLeft_lt _ _ (by omega))
    refine ⟨?_, by omega, lt_of_le_of_lt (w32_le _) hb⟩
    rw [lowBits_w32_or_shift s.used (s.used + 1) s.acc 1 ha (by omega) (by omega),
      show s.used + 1 - s.used = 1 by omega, lowBits_one]
    simp [lowBits_zero]
  -- leaf 5: L ≠ 0, phase-1 flush, border flush (count = 31), payload fits
  · have hu32 : s.used = 32 := by omega
    have hc31 : Nat.log2 v - (32 - s.used) = 31 := by omega
    have hL31 : Nat.log2 v = 31 := by omega
    have hcd : (Nat.log2 v - (32 - s.used)) / 32 = 0 := by omega
    rw [hcd, hc31, show (31:ℕ) % 32 = 31 by norm_num]
    simp only [Nat.zero_add, Nat.shiftLeft_zero, Nat.zero_or, List.replicate_zero,
      List.append_nil]
    refine ⟨?_, by omega, lt_of_le_of_lt (w32_le _) hvm⟩
    simp only [flatMap_lowBits_append, List.flatMap_cons, List.flatMap_nil,
      List.append_assoc, List.append_nil]
    congr 1
    rw [hu32]
    congr 1
    rw [w32_of_lt _ (one_shiftLeft_lt 31 32 (by omega)), lowBits_one_bit 31 32 (by omega),
      w32_of_lt _ (lt_of_lt_of_le hvm (Nat.pow_le_pow_right (by omega) (by omega))),
      hmodbits, hL31]
    simp
  -- leaf 6: contradictory (payload always fits a fresh accumulator)
  · exfalso; omega
  -- leaf 7: L ≠ 0, phase-1 flush, no border flush, payload fits
  · have hcd : (Nat.log2 v - (32 - s.used)) / 32 = 0 := by omega
    have hcm : (Nat.log2 v - (32 - s.used)) % 32 = Nat.log2 v - (32 - s.used) := by omega
    rw [hcd, hcm]
    have hacc1 : w32 (0 ||| 1 <<< (Nat.log2 v - (32 - s.used)))
        = 1 <<< (Nat.log2 v - (32 - s.used)) := by
      rw [Nat.zero_or]; exact w32_of_lt _ (one_shiftLeft_lt _ _ (by omega))
    rw [hacc1]
    have h1lt : (1 : ℕ) <<< (Nat.log2 v - (32 - s.used))
        < 2 ^ (Nat.log2 v - (32 - s.used) + 1) := one_shiftLeft_lt _ _ (by omega)
    refine ⟨?_, by omega, ?_⟩
    · simp only [List.replicate_zero, List.append_nil, flatMap_lowBits_append,
        List.flatMap_cons, List.flatMap_nil, List.append_assoc]
      congr 1
      rw [lowBits_w32_or_shift _ _ _ _ h1lt (by omega) (by omega),
        show Nat.log2 v - (32 - s.used) + 1 + Nat.log2 v - (Nat.log2 v - (32 - s.used) + 1)
          = Nat.log2 v by omega,
        lowBits_one_bit _ _ (by omega), hmodbits, h32a]
      simp only [Nat.add_sub_cancel, List.replicate_zero, List.append_nil, List.append_assoc]
      rw [← List.append_assoc (List.replicate (32 - s.used) false), ← List.replicate_add,
        show 32 - s.used + (Nat.log2 v - (32 - s.used)) = Nat.log2 v by omega]
      simp
    · calc w32 _ ≤ _ := w32_le _
        _ < 2 ^ (Nat.log2 v - (32 - s.used) + 1 + Nat.log2 v) := by
          apply Nat.or_lt_two_pow
          · exact lt_of_lt_of_le h1lt (Nat.pow_le_pow_right (by omega) (by omega))
          · have hs := shiftLeft_lt_pow (v % 2 ^ Nat.log2 v)
              (Nat.log2 v - (32 - s.used) + 1) (Nat.log2 v) hvm
            rwa [show Nat.log2 v + (Nat.log2 v - (32 - s.used) + 1)
              = Nat.log2 v - (32 - s.used) + 1 + Nat.log2 v by omega] at hs
  -- leaf 8: L ≠ 0, phase-1 flush, no border flush, payload crosses
  · have hcd : (Nat.log2 v - (32 - s.used)) / 32 = 0 := by omega
    have hcm : (Nat.log2 v - (32 - s.used)) % 32 = Nat.log2 v - (32 - s.used) := by omega
    rw [hcd, hcm]
    have hacc1 : w32 (0 ||| 1 <<< (Nat.log2 v - (32 - s.used)))
        = 1 <<< (Nat.log2 v - (32 - s.used)) := by
      rw [Nat.zero_or]; exact w32_of_lt _ (one_shiftLeft_lt _ _ (by omega))
    rw [hacc1]
    have h1lt : (1 : ℕ) <<< (Nat.log2 v - (32 - s.used))
        < 2 ^ (Nat.log2 v - (32 - s.used) + 1) := one_shiftLeft_lt _ _ (by omega)
    refine ⟨?_, by omega, shiftRight_lt_pow _ _ _ hvm⟩
    simp only [List.replicate_zero, List.append_nil, flatMap_lowBits_append,
      List.flatMap_cons, List.flatMap_nil, List.append_assoc]
    congr 1
    rw [lowBits_w32_or_shift _ 32 _ _ h1lt (by omega) (by omega),
      lowBits_one_bit _ _ (by omega), h32a]
    have hsplitv := lowBits_add_shift (32 - (Nat.log2 v - (32 - s.used) + 1))
      (Nat.log2 v - (32 - (Nat.log2 v - (32 - s.used) + 1))) (v % 2 ^ Nat.log2 v)
    rw [show 32 - (Nat.log2 v - (32 - s.used) + 1)
        + (Nat.log2 v - (32 - (Nat.log2 v - (32 - s.used) + 1))) = Nat.log2 v by omega] at hsplitv
    rw [← hmodbits, hsplitv]
    simp only [List.append_assoc]
    rw [← List.append_assoc (List.replicate (32 - s.used) false), ← List.replicate_add,
      show 32 - s.used + (Nat.log2 v - (32 - s.used)) = Nat.log2 v by omega]
    simp only [List.append_assoc, List.cons_append, List.nil_append]
    rw [show Nat.log2 v - (32 - s.used) + 1 - (Nat.log2 v - (32 - s.used)) - 1 = 0 by omega]
    simp
  -- leaf 9: L ≠ 0, no phase-1 flush, border flush (u + L + 1 = 32), payload fits
  · simp only [Nat.zero_add, Nat.shiftLeft_zero, Nat.zero_or] at h10 ⊢
    refine ⟨?_, by omega, lt_of_le_of_lt (w32_le _) hvm⟩
    simp only [flatMap_lowBits_append, List.flatMap_cons, List.flatMap_nil,
      List.append_nil, List.append_assoc]
    congr 1
    rw [lowBits_w32_or_shift (s.used + Nat.log2 v) 32 s.acc 1
        (lt_of_lt_of_le ha (Nat.pow_le_pow_right (by omega) (by omega))) (by omega) (by omega),
      w32_of_lt _ (lt_of_lt_of_le hvm (Nat.pow_le_pow_right (by omega) (by omega))),
      lowBits_of_lt s.used (Nat.log2 v) s.acc ha,
      show 32 - (s.used + Nat.log2 v) = 1 by omega, lowBits_one, hmodbits]
    simp
  -- leaf 10: contradictory
  · exfalso; omega
  -- leaf 11: L ≠ 0, no phase-1 flush, no border flush, payload fits
  · have hb : s.acc ||| 1 <<< (s.used + Nat.log2 v) < 2 ^ (s.used + Nat.log2 v + 1) := by
      apply Nat.or_lt_two_pow
      · exact lt_of_lt_of_le ha (Nat.pow_le_pow_right (by omega) (by omega))
      · exact one_shiftLeft_lt _ _ (by omega)
    have hacc1lt : w32 (s.acc ||| 1 <<< (s.used + Nat.log2 v)) < 2 ^ (s.used + Nat.log2 v + 1) :=
      lt_of_le_of_lt (w32_le _) hb
    refine ⟨?_, by omega, ?_⟩
    · simp only [List.append_assoc]
      congr 1
      rw [lowBits_w32_or_shift (s.used + Nat.log2 v + 1) (s.used + Nat.log2 v + 1 + Nat.log2 v)
          _ _ hacc1lt (by omega) (by omega),
        lowBits_w32_or_shift (s.used + Nat.log2 v) (s.used + Nat.log2 v + 1) s.acc 1
          (lt_of_lt_of_le ha (Nat.pow_le_pow_right (by omega) (by omega))) (by omega) (by omega),
        lowBits_of_lt s.used (Nat.log2 v) s.acc ha,
        show s.used + Nat.log2 v + 1 - (s.used + Nat.log2 v) = 1 by omega, lowBits_one,
        show s.used + Nat.log2 v + 1 + Nat.log2 v - (s.used + Nat.log2 v + 1) = Nat.log2 v by omega,
        hmodbits]
      simp
    · calc w32 _ ≤ _ := w32_le _
        _ < 2 ^ (s.used + Nat.log2 v + 1 + Nat.log2 v) := by
          apply Nat.or_lt_two_pow
          · exact lt_of_lt_of_le hacc1lt (Nat.pow_le_pow_right (by omega) (by omega))
          · have hs := shiftLeft_lt_pow (v % 2 ^ Nat.log2 v) (s.used + Nat.log2 v + 1)
              (Nat.log2 v) hvm
            rwa [show Nat.log2 v + (s.used + Nat.log2 v + 1)
              = s.used + Nat.log2 v + 1 + Nat.log2 v by omega] at hs
  -- leaf 12: L ≠ 0, no phase-1 flush, no border flush, payload crosses
  · have hb : s.acc ||| 1 <<< (s.used + Nat.log2 v) < 2 ^ (s.used + Nat.log2 v + 1) := by
      apply Nat.or_lt_two_pow
      · exact lt_of_lt_of_le ha (Nat.pow_le_pow_right (by omega) (by omega))
      · exact one_shiftLeft_lt _ _ (by omega)
    have hacc1lt : w32 (s.acc ||| 1 <<< (s.used + Nat.log2 v)) < 2 ^ (s.used + Nat.log2 v + 1) :=
      lt_of_le_of_lt (w32_le _) hb
    refine ⟨?_, by omega, shiftRight_lt_pow _ _ _ hvm⟩
    simp only [flatMap_lowBits_append, List.flatMap_cons, List.flatMap_nil,
      List.append_nil, List.append_assoc]
    congr 1
    rw [lowBits_w32_or_shift (s.used + Nat.log2 v + 1) 32 _ _ hacc1lt (by omega) (by omega),
      lowBits_w32_or_shift (s.used + Nat.log2 v) (s.used + Nat.log2 v + 1) s.acc 1
        (lt_of_lt_of_le ha (Nat.pow_le_pow_right (by omega) (by omega))) (by omega) (by omega),
      lowBits_of_lt s.used (Nat.log2 v) s.acc ha,
      show s.used + Nat.log2 v + 1 - (s.used + Nat.log2 v) = 1 by omega, lowBits_one]
    have hsplitv := lowBits_add_shift (32 - (s.used + Nat.log2 v + 1))
      (Nat.log2 v - (32 - (s.used + Nat.log2 v + 1))) (v % 2 ^ Nat.log2 v)
    rw [show 32 - (s.used + Nat.log2 v + 1)
        + (Nat.log2 v - (32 - (s.used + Nat.log2 v + 1))) = Nat.log2 v by omega] at hsplitv
    rw [← hmodbits, hsplitv]
    simp

theorem lowBits_cons (n x : ℕ) : lowBits (n + 1) x = x.testBit 0 :: lowBits n (x >>> 1) := by
  simp only [lowBits, List.range_succ_eq_map, List.map_cons, List.map_map]
  congr 1
  refine List.map_congr_left ?_
  intro i _
  simp only [Function.comp_apply, Nat.testBit_shiftRight]
  congr 1
  omega

theorem lowBits_eq_forall (n a b : ℕ) :
    lowBits n a = lowBits n b ↔ ∀ i < n, a.testBit i = b.testBit i := by
  constructor
  · intro h i hi
    have hlen : i < (lowBits n a).length := by rw [lowBits_length]; exact hi
    have hlen2 : i < (lowBits n b).length := by rw [lowBits_length]; exact hi
    have h2 := List.getElem_of_eq h hlen
    simpa [lowBits] using h2
  · intro h
    refine List.map_congr_left ?_
    intro i hi
    exact h i (List.mem_range.mp hi)

theorem replicate_false_true_inj (a b : ℕ) (l m : List Bool)
    (h : List.replicate a false ++ true :: l = List.replicate b false ++ true :: m) :
    a = b ∧ l = m := by
  induction a generalizing b with
  | zero =>
    cases b with
    | zero => simpa using h
    | succ b' => simp [List.replicate_succ] at h
  | succ a' ih =>
    cases b with
    | zero => simp [List.replicate_succ] at h
    | succ b' =>
      simp only [List.replicate_succ, List.cons_append, List.cons.injEq] at h
      obtain ⟨ha, hl⟩ := ih b' h.2
      exact ⟨by omega, hl⟩

theorem ctz_spec (x : ℕ) (hx : x ≠ 0) :
    x.testBit (ctz x) = true ∧ ∀ i < ctz x, x.testBit i = false := by
  induction x using Nat.strong_induction_on with
  | _ x ih =>
    match x, hx with
    | (n+1), _ =>
      rw [ctz]
      split_ifs with hodd
      · constructor
        · simp [Nat.testBit_zero]
          omega
        · omega
      · have hrec := ih ((n+1)/2) (Nat.div_lt_self (by omega) (by omega)) (by omega)
        constructor
        · rw [Nat.testBit_add_one]
          exact hrec.1
        · intro i hi
          cases i with
          | zero => simp [Nat.testBit_zero]; omega
          | succ j =>
            rw [Nat.testBit_add_one]
            exact hrec.2 j (by omega)

theorem ctz_lt_of_lt (x n : ℕ) (hx : x ≠ 0) (hn : x < 2 ^ n) : ctz x < n := by
  by_contra hcon
  have h1 := (ctz_spec x hx).1
  have h2 : x.testBit (ctz x) = false :=
    Nat.testBit_lt_two_pow (lt_of_lt_of_le hn (Nat.pow_le_pow_right (by omega) (by omega)))
  rw [h1] at h2
  simp at h2

theorem lowBits_decomp_ctz (n x : ℕ) (hx : x ≠ 0) (hn : x < 2 ^ n) :
    lowBits n x = List.replicate (ctz x) false
      ++ true :: lowBits (n - ctz x - 1) (x >>> (ctz x + 1)) := by
  obtain ⟨h1, h2⟩ := ctz_spec x hx
  have hlt : ctz x < n := ctz_lt_of_lt x n hx hn
  have hs := lowBits_add_shift (ctz x) (n - ctz x) x
  rw [show ctz x + (n - ctz x) = n by omega] at hs
  rw [hs]
  have hz : lowBits (ctz x) x = List.replicate (ctz x) false := by
    rw [show List.replicate (ctz x) false = lowBits (ctz x) 0 by rw [lowBits_zero_val]]
    rw [lowBits_eq_forall]
    intro i hi
    rw [h2 i hi, Nat.zero_testBit]
  rw [hz]
  congr 1
  rw [show n - ctz x = (n - ctz x - 1) + 1 by omega, lowBits_cons]
  have hb0 : (x >>> ctz x).testBit 0 = true := by
    rw [Nat.testBit_shiftRight, Nat.add_zero]; exact h1
  rw [hb0]
  congr 2

theorem replicate_false_prefix (m z : ℕ) (l tail : List Bool)
    (h : List.replicate m false ++ l = List.replicate z false ++ true :: tail) :
    m ≤ z ∧ l = List.replicate (z - m) false ++ true :: tail := by
  induction m generalizing z with
  | zero => simpa using h
  | succ m' ih =>
    cases z with
    | zero => simp [List.replicate_succ] at h
    | succ z' =>
      simp only [List.replicate_succ, List.cons_append, List.cons.injEq] at h
      obtain ⟨hm, hl⟩ := ih z' h.2
      exact ⟨by omega, by simpa [show z' + 1 - (m' + 1) = z' - m' by omega] using hl⟩

theorem scanZeros_nonzero (src : List ℕ) (acc used zb z : ℕ) (tail : List Bool)
    (hane : acc ≠ 0) (hused : used ≤ 32) (hacc : acc < 2 ^ (32 - used))
    (hsrc : ∀ w ∈ src, w < 2 ^ 32)
    (hbits : lowBits (32 - used) acc ++ src.flatMap (lowBits 32)
      = List.replicate z false ++ true :: tail) :
    ∃ acc' used' src', scanZeros acc used zb src = (zb + z, acc', used', src')
      ∧ used' < 32 ∧ acc' < 2 ^ (32 - used') ∧ (∀ w ∈ src', w < 2 ^ 32)
      ∧ lowBits (32 - used') acc' ++ src'.flatMap (lowBits 32) = true :: tail := by
  have hclt := ctz_lt_of_lt acc (32 - used) hane hacc
  rw [lowBits_decomp_ctz (32 - used) acc hane hacc] at hbits
  simp only [List.append_assoc, List.cons_append] at hbits
  obtain ⟨hz, htail⟩ := replicate_false_true_inj _ _ _ _ hbits
  refine ⟨acc >>> ctz acc, used + ctz acc, src, ?_, by omega, ?_, hsrc, ?_⟩
  · rw [scanZeros.eq_def, if_neg hane, hz]
  · have hs := shiftRight_lt_pow acc (ctz acc) (32 - used) hacc
    rwa [show 32 - used - ctz acc = 32 - (used + ctz acc) by omega] at hs
  · rw [show 32 - (used + ctz acc) = (32 - used - ctz acc - 1) + 1 by omega, lowBits_cons]
    rw [show (acc >>> ctz acc).testBit 0 = true by
      rw [Nat.testBit_shiftRight, Nat.add_zero]; exact (ctz_spec acc hane).1]
    rw [← htail, Nat.shiftRight_add]
    rfl

theorem scanZeros_correct (src : List ℕ) (acc used zb z : ℕ) (tail : List Bool)
    (hused : used ≤ 32) (hacc : acc < 2 ^ (32 - used)) (hsrc : ∀ w ∈ src, w < 2 ^ 32)
    (hbits : lowBits (32 - used) acc ++ src.flatMap (lowBits 32)
      = List.replicate z false ++ true :: tail) :
    ∃ acc' used' src', scanZeros acc used zb src = (zb + z, acc', used', src')
      ∧ used' < 32 ∧ acc' < 2 ^ (32 - used') ∧ (∀ w ∈ src', w < 2 ^ 32)
      ∧ lowBits (32 - used') acc' ++ src'.flatMap (lowBits 32) = true :: tail := by
  induction src generalizing acc used zb z with
  | nil =>
    have hane : acc ≠ 0 := by
      intro h0
      rw [h0, lowBits_zero_val] at hbits
      simp only [List.flatMap_nil, List.append_nil] at hbits
      obtain ⟨-, hl⟩ :=
        replicate_false_prefix (32 - used) z [] tail (by simpa using hbits)
      exact absurd hl (by simp)
    exact scanZeros_nonzero [] acc used zb z tail hane hused hacc hsrc hbits
  | cons w t ih =>
    by_cases hane : acc = 0
    · subst hane
      rw [lowBits_zero_val] at hbits
      simp only [List.flatMap_cons] at hbits
      obtain ⟨hm, hl⟩ := replicate_false_prefix (32 - used) z _ tail hbits
      have hw : w < 2 ^ 32 := hsrc w (by simp)
      have ht : ∀ u ∈ t, u < 2 ^ 32 := fun u hu => hsrc u (by simp [hu])
      obtain ⟨acc2, used2, src2, heq, hu2, ha2, hs2, hb2⟩ :=
        ih w 0 (zb + (32 - used)) (z - (32 - used)) (by omega)
          (by simpa using hw) ht (by simpa using hl)
      refine ⟨acc2, used2, src2, ?_, hu2, ha2, hs2, hb2⟩
      rw [scanZeros.eq_def, if_pos rfl]
      rw [show zb + (32 - used) + (z - (32 - used)) = zb + z by omega] at heq
      exact heq
    · exact scanZeros_nonzero (w :: t) acc used zb z tail hane hused hacc hsrc hbits

theorem testBit_log2_self (v : ℕ) (hv : 1 ≤ v) : v.testBit (Nat.log2 v) = true := by
  have h1 : 2 ^ Nat.log2 v ≤ v := Nat.log2_self_le (by omega)
  have h2 : v < 2 ^ (Nat.log2 v + 1) := Nat.lt_log2_self
  have hdiv : v / 2 ^ Nat.log2 v = 1 := by
    apply Nat.div_eq_of_lt_le (by simpa using h1)
    calc v < 2 ^ (Nat.log2 v + 1) := h2
      _ = (1 + 1) * 2 ^ Nat.log2 v := by ring
  rw [Nat.testBit_to_div_mod, hdiv]
  norm_num

theorem testBit_gt_log2 (v i : ℕ) (hi : Nat.log2 v < i) : v.testBit i = false := by
  rcases Nat.eq_zero_or_pos v with h0 | hpos
  · simp [h0]
  · exact Nat.testBit_lt_two_pow
      (lt_of_lt_of_le Nat.lt_log2_self (Nat.pow_le_pow_right (by omega) (by omega)))

theorem value_or_mask (x v : ℕ) (hv : 1 ≤ v)
    (hbits : ∀ i < Nat.log2 v, x.testBit i = v.testBit i) :
    (x &&& leftMask (Nat.log2 v)) ||| 1 <<< Nat.log2 v = v := by
  apply Nat.eq_of_testBit_eq
  intro i
  rw [Nat.testBit_or, Nat.testBit_and, Nat.one_shiftLeft, leftMask,
    Nat.testBit_two_pow_sub_one, Nat.testBit_two_pow]
  rcases lt_trichotomy i (Nat.log2 v) with hlt | heq | hgt
  · simp [show i < Nat.log2 v + 1 by omega, hbits i hlt,
      show ¬(Nat.log2 v = i) by omega]
  · simp [heq, testBit_log2_self v hv]
  · simp [show ¬(i < Nat.log2 v + 1) by omega, show ¬(Nat.log2 v = i) by omega,
      testBit_gt_log2 v i hgt]

theorem value_or_mask_split (a w free v : ℕ) (hv : 1 ≤ v) (hfree : free ≤ Nat.log2 v)
    (ha : a < 2 ^ free)
    (h1 : ∀ i < free, a.testBit i = v.testBit i)
    (h2 : ∀ i < Nat.log2 v - free, w.testBit i = v.testBit (free + i)) :
    a ||| (((w &&& leftMask (Nat.log2 v - free)) <<< free) ||| 1 <<< Nat.log2 v) = v := by
  apply Nat.eq_of_testBit_eq
  intro i
  rw [Nat.testBit_or, Nat.testBit_or, Nat.testBit_shiftLeft, Nat.testBit_and,
    Nat.one_shiftLeft, leftMask, Nat.testBit_two_pow_sub_one, Nat.testBit_two_pow]
  rcases lt_trichotomy i (Nat.log2 v) with hlt | heq | hgt
  · rcases lt_or_ge i free with hif | hif
    · simp [h1 i hif, show ¬(free ≤ i) by omega, show ¬(Nat.log2 v = i) by omega]
    · have haf : a.testBit i = false :=
        Nat.testBit_lt_two_pow (lt_of_lt_of_le ha (Nat.pow_le_pow_right (by omega) hif))
      have hw := h2 (i - free) (by omega)
      rw [show free + (i - free) = i by omega] at hw
      simp [haf, hif, hw, show i - free < Nat.log2 v - free + 1 by omega,
        show ¬(Nat.log2 v = i) by omega]
  · have haf : a.testBit i = false :=
      Nat.testBit_lt_two_pow
        (lt_of_lt_of_le ha (Nat.pow_le_pow_right (by omega) (by omega)))
    simp [haf, heq, testBit_log2_self v hv]
  · have haf : a.testBit i = false :=
      Nat.testBit_lt_two_pow
        (lt_of_lt_of_le ha (Nat.pow_le_pow_right (by omega) (by omega)))
    simp [haf, show ¬(i - free < Nat.log2 v - free + 1) by omega,
      show ¬(Nat.log2 v = i) by omega, testBit_gt_log2 v i hgt]

set_option maxHeartbeats 2000000 in
theorem gammaInCore_correct (acc0 used0 : ℕ) (src0 : List ℕ) (v : ℕ) (rest : List Bool)
    (hu : used0 ≤ 32) (ha : acc0 < 2 ^ (32 - used0)) (hs : ∀ w ∈ src0, w < 2 ^ 32)
    (hv1 : 1 ≤ v) (hv2 : v < 2 ^ 32)
    (hbits : lowBits (32 - used0) acc0 ++ src0.flatMap (lowBits 32) = gammaBits v ++ rest) :
    (gammaInCore acc0 used0 src0).1 = v
      ∧ bitsIn (gammaInCore acc0 used0 src0).2 = rest
      ∧ (gammaInCore acc0 used0 src0).2.wf := by
  have hL : Nat.log2 v < 32 := (Nat.log2_lt (by omega)).mpr hv2
  rw [gammaBits] at hbits
  simp only [List.append_assoc, List.cons_append] at hbits
  obtain ⟨acc1, used1, src1, heq, hu1, ha1, hs1, hb1⟩ :=
    scanZeros_correct src0 acc0 used0 0 (Nat.log2 v) (lowBits (Nat.log2 v) v ++ rest)
      hu ha hs hbits
  rw [show 32 - used1 = (31 - used1) + 1 by omega, lowBits_cons] at hb1
  simp only [List.cons_append, List.cons.injEq] at hb1
  obtain ⟨hb1h, hb1t⟩ := hb1
  simp only [gammaInCore, heq, Nat.zero_add]
  rw [if_neg (by omega : ¬used1 = 32)]
  dsimp only
  by_cases hfits : Nat.log2 v ≤ 32 - (used1 + 1)
  · -- payload fits in the current word
    rw [if_pos hfits]
    have hsplit := lowBits_add_shift (Nat.log2 v) (31 - used1 - Nat.log2 v) (acc1 >>> 1)
    rw [show Nat.log2 v + (31 - used1 - Nat.log2 v) = 31 - used1 by omega] at hsplit
    rw [hsplit, List.append_assoc] at hb1t
    have hinj := List.append_inj hb1t (by simp [lowBits_length])
    obtain ⟨hpre, hpost⟩ := hinj
    refine ⟨?_, ?_, ?_, ?_, ?_⟩
    · rw [w32_of_lt _ ?bnd]
      · exact value_or_mask (acc1 >>> 1) v hv1 ((lowBits_eq_forall _ _ _).mp hpre)
      case bnd =>
        apply Nat.or_lt_two_pow (n := 32)
        · calc (acc1 >>> 1) &&& leftMask (Nat.log2 v) ≤ leftMask (Nat.log2 v) :=
              Nat.and_le_right
            _ < 2 ^ 32 := by
              rw [leftMask]
              have : (2:ℕ) ^ (Nat.log2 v + 1) ≤ 2 ^ 32 := Nat.pow_le_pow_right (by omega) (by omega)
              omega
        · exact one_shiftLeft_lt _ _ (by omega)
    · rw [bitsIn]
      dsimp only
      rw [show 32 - (used1 + 1 + Nat.log2 v) = 31 - used1 - Nat.log2 v by omega]
      exact hpost
    · dsimp only
      omega
    · dsimp only
      have h1 : acc1 >>> 1 < 2 ^ (31 - used1) := by
        have := shiftRight_lt_pow acc1 1 (32 - used1) ha1
        rwa [show 32 - used1 - 1 = 31 - used1 by omega] at this
      have h2 := shiftRight_lt_pow (acc1 >>> 1) (Nat.log2 v) (31 - used1) h1
      rwa [show 31 - used1 - Nat.log2 v = 32 - (used1 + 1 + Nat.log2 v) by omega] at h2
    · dsimp only
      exact hs1
  · rw [if_neg hfits]
    by_cases h31 : used1 + 1 = 32
    · -- payload starts at a fresh word
      rw [if_pos h31]
      have hk0 : 31 - used1 = 0 := by omega
      rw [hk0, lowBits_zero] at hb1t
      simp only [List.nil_append] at hb1t
      rcases src1 with _ | ⟨w, t⟩
      · exfalso
        have hlen := congrArg List.length hb1t
        simp [lowBits_length] at hlen
        omega
      · have hw : w < 2 ^ 32 := hs1 w (by simp)
        simp only [List.flatMap_cons] at hb1t
        have hsplit := lowBits_add_shift (Nat.log2 v) (32 - Nat.log2 v) w
        rw [show Nat.log2 v + (32 - Nat.log2 v) = 32 by omega] at hsplit
        rw [hsplit, List.append_assoc] at hb1t
        obtain ⟨hpre, hpost⟩ := List.append_inj hb1t (by simp [lowBits_length])
        dsimp only
        refine ⟨?_, ?_, ?_, ?_, ?_⟩
        · rw [w32_of_lt _ ?bnd2]
          · exact value_or_mask w v hv1 ((lowBits_eq_forall _ _ _).mp hpre)
          case bnd2 =>
            apply Nat.or_lt_two_pow (n := 32)
            · calc w &&& leftMask (Nat.log2 v) ≤ leftMask (Nat.log2 v) := Nat.and_le_right
                _ < 2 ^ 32 := by
                  rw [leftMask]
                  have : (2:ℕ) ^ (Nat.log2 v + 1) ≤ 2 ^ 32 :=
                    Nat.pow_le_pow_right (by omega) (by omega)
                  omega
            · exact one_shiftLeft_lt _ _ (by omega)
        · rw [bitsIn]
          dsimp only
          exact hpost
        · dsimp only
          omega
        · dsimp only
          exact shiftRight_lt_pow w _ _ hw
        · dsimp only
          exact fun u hu' => hs1 u (by simp [hu'])
    · -- payload crosses the word boundary
      rw [if_neg h31]
      rcases src1 with _ | ⟨w, t⟩
      · exfalso
        have hlen := congrArg List.length hb1t
        simp [lowBits_length] at hlen
        omega
      · have hw : w < 2 ^ 32 := hs1 w (by simp)
        simp only [List.flatMap_cons] at hb1t
        have hsplitv := lowBits_add_shift (31 - used1) (Nat.log2 v - (31 - used1)) v
        rw [show 31 - used1 + (Nat.log2 v - (31 - used1)) = Nat.log2 v by omega] at hsplitv
        rw [hsplitv, List.append_assoc] at hb1t
        obtain ⟨hpre, hpost⟩ := List.append_inj hb1t (by simp [lowBits_length])
        have hsplitw := lowBits_add_shift (Nat.log2 v - (31 - used1))
          (32 - (Nat.log2 v - (31 - used1))) w
        rw [show Nat.log2 v - (31 - used1) + (32 - (Nat.log2 v - (31 - used1))) = 32
          by omega] at hsplitw
        rw [hsplitw, List.append_assoc] at hpost
        obtain ⟨hpre2, hpost2⟩ := List.append_inj hpost (by simp [lowBits_length])
        have hacc2 : acc1 >>> 1 < 2 ^ (31 - used1) := by
          have := shiftRight_lt_pow acc1 1 (32 - used1) ha1
          rwa [show 32 - used1 - 1 = 31 - used1 by omega] at this
        dsimp only
        rw [show 32 - (used1 + 1) = 31 - used1 by omega]
        refine ⟨?_, ?_, ?_, ?_⟩
        · rw [w32_of_lt _ ?bnd3]
          · apply value_or_mask_split (acc1 >>> 1) w (31 - used1) v hv1 (by omega) hacc2
            · intro i hi
              have := (lowBits_eq_forall _ _ _).mp hpre i hi
              exact this
            · intro i hi
              have h2 := (lowBits_eq_forall _ _ _).mp hpre2 i hi
              rw [h2, Nat.testBit_shiftRight]
          case bnd3 =>
            apply Nat.or_lt_two_pow (n := 32)
            · exact lt_of_lt_of_le hacc2 (Nat.pow_le_pow_right (by omega) (by omega))
            apply Nat.or_lt_two_pow (n := 32)
            · have hmb : w &&& leftMask (Nat.log2 v - (31 - used1))
                  < 2 ^ (Nat.log2 v - (31 - used1) + 1) := by
                calc w &&& leftMask (Nat.log2 v - (31 - used1))
                    ≤ leftMask (Nat.log2 v - (31 - used1)) := Nat.and_le_right
                  _ < 2 ^ (Nat.log2 v - (31 - used1) + 1) := by
                    rw [leftMask]
                    have h0 : 0 < 2 ^ (Nat.log2 v - (31 - used1) + 1) := by positivity
                    omega
              have := shiftLeft_lt_pow _ (31 - used1) _ hmb
              exact lt_of_lt_of_le this (Nat.pow_le_pow_right (by omega) (by omega))
            · exact one_shiftLeft_lt _ _ (by omega)
        · rw [bitsIn]
          dsimp only
          exact hpost2
        · dsimp only
          omega
        · dsimp only
          exact ⟨shiftRight_lt_pow w _ _ hw, fun u hu' => hs1 u (by simp [hu'])⟩

theorem gammaIn_gammaBits (s : BitInSt) (v : ℕ) (rest : List Bool) (hwf : s.wf)
    (hv1 : 1 ≤ v) (hv2 : v < 2 ^ 32) (hbits : bitsIn s = gammaBits v ++ rest) :
    (gammaIn s).1 = v ∧ bitsIn (gammaIn s).2 = rest ∧ (gammaIn s).2.wf := by
  obtain ⟨hu, ha, hs⟩ := hwf
  rw [gammaIn]
  by_cases h32 : s.used = 32
  · rw [if_pos h32]
    rw [bitsIn, h32] at hbits
    rcases hsg : s.src with _ | ⟨w, t⟩
    · exfalso
      rw [hsg] at hbits
      have hlen := congrArg List.length hbits
      simp [gammaBits, lowBits_length] at hlen
      omega
    · rw [hsg] at hbits
      simp only [show (32:ℕ) - 32 = 0 by norm_num, lowBits_zero, List.nil_append,
        List.flatMap_cons] at hbits
      exact gammaInCore_correct w 0 t v rest (by omega)
        (by simpa using hs w (by rw [hsg]; simp))
        (fun u hu' => hs u (by rw [hsg]; simp [hu'])) hv1 hv2 (by simpa using hbits)
  · rw [if_neg h32]
    exact gammaInCore_correct s.acc s.used s.src v rest hu ha hs hv1 hv2 hbits

/-- C8: for every `v ≥ 1` (as a 32-bit unsigned value), `bit_out::gamma`
emits exactly `⌊log2 v⌋` zero bits, then a single 1 bit, then the low
`⌊log2 v⌋` bits of `v`; and `bit_in::gamma`, reading a bit stream that
starts with exactly that bit sequence, returns `v`. -/
theorem C8_gamma_codec (v : ℕ) (hv1 : 1 ≤ v) (hv2 : v < 2 ^ 32)
    (s : BitOutSt) (hs : s.wf) (d : BitInSt) (rest : List Bool) (hd : d.wf)
    (hbits : bitsIn d = (List.replicate (Nat.log2 v) false
      ++ true :: lowBits (Nat.log2 v) v) ++ rest) :
    streamBits (gammaOut s v) = streamBits s
        ++ (List.replicate (Nat.log2 v) false ++ true :: lowBits (Nat.log2 v) v)
      ∧ (gammaIn d).1 = v := by
  refine ⟨?_, ?_⟩
  · have h := (gammaOut_streamBits s v hs hv1 hv2).1
    rwa [gammaBits] at h
  · exact (gammaIn_gammaBits d v rest hd hv1 hv2 (by rwa [gammaBits])).1

/-- Witness for C8 at `v = 5` with the gamma code of 5 packed into the
single stream word 12. -/
theorem C8_gamma_codec_witness :
    streamBits (gammaOut BitOutSt.fresh 5) = streamBits BitOutSt.fresh
        ++ (List.replicate (Nat.log2 5) false ++ true :: lowBits (Nat.log2 5) 5)
      ∧ (gammaIn (BitInSt.start [12])).1 = 5 :=
  C8_gamma_codec 5 (by norm_num) (by norm_num) BitOutSt.fresh
    ⟨by norm_num [BitOutSt.fresh], by norm_num [BitOutSt.fresh]⟩
    (BitInSt.start [12]) (List.replicate 27 false)
    ⟨by norm_num [BitInSt.start], by norm_num [BitInSt.start], by
      intro w hw; simp [BitInSt.start] at hw; omega⟩
    (by
      norm_num [bitsIn, BitInSt.start, lowBits, Nat.log2, List.range_succ]
      decide)

theorem or128_and127 (nb : ℕ) (h : nb < 128) : (1 <<< 7 ||| nb) &&& 127 = nb := by
  have e : (1 <<< 7 : ℕ) = 128 := by decide
  rw [e]
  refine Nat.eq_of_testBit_eq fun i => ?_
  simp only [Nat.testBit_and, Nat.testBit_or]
  by_cases hi : i < 7
  · have h128 : Nat.testBit 128 i = false := by interval_cases i <;> decide
    have h127 : Nat.testBit 127 i = true := by interval_cases i <;> decide
    simp [h128, h127]
  · have hpow : (2 ^ 7 : ℕ) ≤ 2 ^ i := Nat.pow_le_pow_right (by norm_num) (by omega)
    have h127 : Nat.testBit 127 i = false :=
      Nat.testBit_lt_two_pow (lt_of_lt_of_le (show (127 : ℕ) < 2 ^ 7 by norm_num) hpow)
    have hnb : nb.testBit i = false :=
      Nat.testBit_lt_two_pow (lt_of_lt_of_le (lt_of_lt_of_le h (by norm_num)) hpow)
    simp [h127, hnb]

theorem or128_testBit7 (nb : ℕ) : (1 <<< 7 ||| nb).testBit 7 = true := by
  simp only [Nat.testBit_or, Bool.or_eq_true]
  exact Or.inl (by decide)

/-- C7: for `1 < nb < 128` the zero-run encoder emits the single byte
`0x80 | nb` — and only for such `nb` — and the deserializer, on a token
byte with the high bit set, consumes exactly that one byte and advances
the block index by the low seven bits, i.e. by `nb`. -/
theorem C7_high_bit_shortcut (nb : ℕ) (h1 : 1 < nb) (h2 : nb < 128) :
    encodeZeroRun nb = [1 <<< 7 ||| nb]
      ∧ (∀ (bm64 : Bool) (i : ℕ) (rest : List ℕ),
          deserializerTokenStep bm64 i (1 <<< 7 ||| nb) rest
            = .ok (.skipTo (i + nb) 1))
      ∧ (∀ m, encodeZeroRun m = [1 <<< 7 ||| m] → 1 < m ∧ m < 128) := by
  refine ⟨?_, ?_, ?_⟩
  · rw [encodeZeroRun, if_pos ⟨h1, h2⟩]
  · intro bm64 i rest
    rw [deserializerTokenStep, if_pos (or128_testBit7 nb), or128_and127 nb h2]
  · intro m hm
    by_contra hc
    rw [encodeZeroRun, if_neg hc] at hm
    split_ifs at hm with g1 g2 g3 g4
    · subst g1
      exact absurd (List.head_eq_of_cons_eq hm) (by decide)
    · exact absurd (congrArg List.length hm) (by simp [set_block_8zero])
    · exact absurd (congrArg List.length hm) (by simp [bytes16le])
    · exact absurd (congrArg List.length hm) (by simp [bytes32le])
    · exact absurd (congrArg List.length hm)
        (by simp [bytes64le, bytes32le])

/-- Witness for C7 at `nb = 5`: token byte `0x85`. -/
theorem C7_high_bit_shortcut_witness :
    encodeZeroRun 5 = [1 <<< 7 ||| 5]
      ∧ (∀ (bm64 : Bool) (i : ℕ) (rest : List ℕ),
          deserializerTokenStep bm64 i (1 <<< 7 ||| 5) rest
            = .ok (.skipTo (i + 5) 1))
      ∧ (∀ m, encodeZeroRun m = [1 <<< 7 ||| m] → 1 < m ∧ m < 128) :=
  C7_high_bit_shortcut 5 (by norm_num) (by norm_num)

/-- C9: `serial_stream_iterator::next` has no case for the 64-bit run
tokens 25 (`set_block_64zero`) and 26 (`set_block_64one`) and falls into
the `default:` serial-format error, while `deserializer::deserialize`
in 64-bit address mode accepts both and skips / fills the counted
blocks. -/
theorem C9_iterator_missing_64_runs :
    ∀ (i : ℕ) (rest : List ℕ),
      streamIterNextBlocks set_block_64zero rest = .error .serialFormat
      ∧ streamIterNextBlocks set_block_64one rest = .error .serialFormat
      ∧ deserializerTokenStep true i set_block_64zero rest
          = .ok (.skipTo (i + read64 rest) 9)
      ∧ deserializerTokenStep true i set_block_64one rest
          = .ok (.fillTo (i + read64 rest) 9) := by
  intro i rest
  exact ⟨rfl, rfl, rfl, rfl⟩

theorem tokenStep_error_iff (bm64 : Bool) (i btype : ℕ) (rest : List ℕ) :
    deserializerTokenStep bm64 i btype rest = Except.error SErr.serialFormat ↔
      btype.testBit 7 = false ∧ (btype = 12 ∨ btype = 13 ∨ 34 < btype
        ∨ (bm64 = false ∧ (btype = 25 ∨ btype = 26))) := by
  rw [deserializerTokenStep]
  simp only [set_block_azero, set_block_end, set_block_1zero, set_block_8zero,
      set_block_16zero, set_block_32zero, set_block_64zero, set_block_aone,
      set_block_1one, set_block_8one, set_block_16one, set_block_32one,
      set_block_64one, set_block_bit, set_block_bit_interval, set_block_bit_0runs,
      set_block_arrbit, set_block_bit_1bit, set_block_gap, set_block_gapbit,
      set_block_arrgap, set_block_gap_egamma, set_block_arrgap_egamma,
      set_block_arrgap_egamma_inv, set_block_arrgap_inv, set_block_gap_bienc,
      set_block_arrgap_bienc, set_block_arrgap_bienc_inv, set_block_arr_bienc,
      set_block_arrbit_inv, set_block_arr_bienc_inv, set_block_bitgap_bienc,
      set_block_bit_digest0]
  by_cases g1 : btype.testBit 7 = true
  · rw [if_pos g1]
    exact iff_of_false (by simp) (fun h => by rw [h.1] at g1; exact absurd g1 (by simp))
  · rw [if_neg g1]
    have h7 : btype.testBit 7 = false := by simpa using g1
    by_cases g2 : btype = 9 ∨ btype = 0
    · rw [if_pos g2]
      exact iff_of_false (by simp) (fun h => by rcases h.2 with h|h|h|⟨-, h⟩ <;> omega)
    · rw [if_neg g2]
      by_cases g3 : btype = 1
      · rw [if_pos g3]
        exact iff_of_false (by simp) (fun h => by rcases h.2 with h|h|h|⟨-, h⟩ <;> omega)
      · rw [if_neg g3]
        by_cases g4 : btype = 3
        · rw [if_pos g4]
          exact iff_of_false (by simp) (fun h => by rcases h.2 with h|h|h|⟨-, h⟩ <;> omega)
        · rw [if_neg g4]
          by_cases g5 : btype = 5
          · rw [if_pos g5]
            exact iff_of_false (by simp) (fun h => by rcases h.2 with h|h|h|⟨-, h⟩ <;> omega)
          · rw [if_neg g5]
            by_cases g6 : btype = 7
            · rw [if_pos g6]
              exact iff_of_false (by simp) (fun h => by rcases h.2 with h|h|h|⟨-, h⟩ <;> omega)
            · rw [if_neg g6]
              by_cases g7 : btype = 25
              · rw [if_pos g7]
                by_cases gb7 : bm64 = true
                · rw [if_pos gb7]
                  refine iff_of_false (by simp) (fun h => ?_)
                  rcases h.2 with h|h|h|⟨hb, -⟩
                  · omega
                  · omega
                  · omega
                  · rw [gb7] at hb; exact absurd hb (by simp)
                · rw [if_neg gb7]
                  exact iff_of_true rfl ⟨h7, Or.inr (Or.inr (Or.inr ⟨by simpa using gb7, Or.inl g7⟩))⟩
              · rw [if_neg g7]
                by_cases g8 : btype = 10
                · rw [if_pos g8]
                  exact iff_of_false (by simp) (fun h => by rcases h.2 with h|h|h|⟨-, h⟩ <;> omega)
                · rw [if_neg g8]
                  by_cases g9 : btype = 2
                  · rw [if_pos g9]
                    exact iff_of_false (by simp) (fun h => by rcases h.2 with h|h|h|⟨-, h⟩ <;> omega)
                  · rw [if_neg g9]
                    by_cases g10 : btype = 4
                    · rw [if_pos g10]
                      exact iff_of_false (by simp) (fun h => by rcases h.2 with h|h|h|⟨-, h⟩ <;> omega)
                    · rw [if_neg g10]
                      by_cases g11 : btype = 6
                      · rw [if_pos g11]
                        exact iff_of_false (by simp) (fun h => by rcases h.2 with h|h|h|⟨-, h⟩ <;> omega)
                      · rw [if_neg g11]
                        by_cases g12 : btype = 8
                        · rw [if_pos g12]
                          exact iff_of_false (by simp) (fun h => by rcases h.2 with h|h|h|⟨-, h⟩ <;> omega)
                        · rw [if_neg g12]
                          by_cases g13 : btype = 26
                          · rw [if_pos g13]
                            by_cases gb13 : bm64 = true
                            · rw [if_pos gb13]
                              refine iff_of_false (by simp) (fun h => ?_)
                              rcases h.2 with h|h|h|⟨hb, -⟩
                              · omega
                              · omega
                              · omega
                              · rw [gb13] at hb; exact absurd hb (by simp)
                            · rw [if_neg gb13]
                              exact iff_of_true rfl ⟨h7, Or.inr (Or.inr (Or.inr ⟨by simpa using gb13, Or.inr g13⟩))⟩
                          · rw [if_neg g13]
                            by_cases g14 : btype = 11 ∨ btype = 17 ∨ btype = 22 ∨ btype = 16
                            · rw [if_pos g14]
                              exact iff_of_false (by simp) (fun h => by rcases h.2 with h|h|h|⟨-, h⟩ <;> omega)
                            · rw [if_neg g14]
                              by_cases g15 : btype = 19
                              · rw [if_pos g15]
                                exact iff_of_false (by simp) (fun h => by rcases h.2 with h|h|h|⟨-, h⟩ <;> omega)
                              · rw [if_neg g15]
                                by_cases g16 : btype = 14 ∨ btype = 15 ∨ btype = 18 ∨ btype = 20 ∨ btype = 21 ∨ btype = 23 ∨ btype = 24 ∨ btype = 27 ∨ btype = 28 ∨ btype = 29
                                · rw [if_pos g16]
                                  exact iff_of_false (by simp) (fun h => by rcases h.2 with h|h|h|⟨-, h⟩ <;> omega)
                                · rw [if_neg g16]
                                  by_cases g17 : btype = 31 ∨ btype = 30 ∨ btype = 32 ∨ btype = 33 ∨ btype = 34
                                  · rw [if_pos g17]
                                    exact iff_of_false (by simp) (fun h => by rcases h.2 with h|h|h|⟨-, h⟩ <;> omega)
                                  · rw [if_neg g17]
                                    refine iff_of_true rfl ⟨h7, ?_⟩
                                    have hmain : btype = 12 ∨ btype = 13 ∨ 34 < btype := by omega
                                    rcases hmain with h|h|h
                                    exacts [Or.inl h, Or.inr (Or.inl h), Or.inr (Or.inr (Or.inl h))]

theorem iterNext_error_iff (btype : ℕ) (rest : List ℕ) :
    streamIterNextBlocks btype rest = Except.error SErr.serialFormat ↔
      btype.testBit 7 = false ∧ (btype = 12 ∨ btype = 13 ∨ btype = 25
        ∨ btype = 26 ∨ 34 < btype) := by
  rw [streamIterNextBlocks]
  simp only [set_block_azero, set_block_end, set_block_1zero, set_block_8zero,
      set_block_16zero, set_block_32zero, set_block_64zero, set_block_aone,
      set_block_1one, set_block_8one, set_block_16one, set_block_32one,
      set_block_64one, set_block_bit, set_block_bit_interval, set_block_bit_0runs,
      set_block_arrbit, set_block_bit_1bit, set_block_gap, set_block_gapbit,
      set_block_arrgap, set_block_gap_egamma, set_block_arrgap_egamma,
      set_block_arrgap_egamma_inv, set_block_arrgap_inv, set_block_gap_bienc,
      set_block_arrgap_bienc, set_block_arrgap_bienc_inv, set_block_arr_bienc,
      set_block_arrbit_inv, set_block_arr_bienc_inv, set_block_bitgap_bienc,
      set_block_bit_digest0]
  by_cases g1 : btype.testBit 7 = true
  · rw [if_pos g1]
    exact iff_of_false (by simp) (fun h => by rw [h.1] at g1; exact absurd g1 (by simp))
  · rw [if_neg g1]
    have h7 : btype.testBit 7 = false := by simpa using g1
    by_cases g2 : btype = 9 ∨ btype = 0
    · rw [if_pos g2]
      exact iff_of_false (by simp) (fun h => by rcases h.2 with h|h|h|h|h <;> omega)
    · rw [if_neg g2]
      by_cases g3 : btype = 1
      · rw [if_pos g3]
        exact iff_of_false (by simp) (fun h => by rcases h.2 with h|h|h|h|h <;> omega)
      · rw [if_neg g3]
        by_cases g4 : btype = 3
        · rw [if_pos g4]
          exact iff_of_false (by simp) (fun h => by rcases h.2 with h|h|h|h|h <;> omega)
        · rw [if_neg g4]
          by_cases g5 : btype = 5
          · rw [if_pos g5]
            exact iff_of_false (by simp) (fun h => by rcases h.2 with h|h|h|h|h <;> omega)
          · rw [if_neg g5]
            by_cases g6 : btype = 7
            · rw [if_pos g6]
              exact iff_of_false (by simp) (fun h => by rcases h.2 with h|h|h|h|h <;> omega)
            · rw [if_neg g6]
              by_cases g7 : btype = 10
              · rw [if_pos g7]
                exact iff_of_false (by simp) (fun h => by rcases h.2 with h|h|h|h|h <;> omega)
              · rw [if_neg g7]
                by_cases g8 : btype = 2
                · rw [if_pos g8]
                  exact iff_of_false (by simp) (fun h => by rcases h.2 with h|h|h|h|h <;> omega)
                · rw [if_neg g8]
                  by_cases g9 : btype = 4
                  · rw [if_pos g9]
                    exact iff_of_false (by simp) (fun h => by rcases h.2 with h|h|h|h|h <;> omega)
                  · rw [if_neg g9]
                    by_cases g10 : btype = 6
                    · rw [if_pos g10]
                      exact iff_of_false (by simp) (fun h => by rcases h.2 with h|h|h|h|h <;> omega)
                    · rw [if_neg g10]
                      by_cases g11 : btype = 8
                      · rw [if_pos g11]
                        exact iff_of_false (by simp) (fun h => by rcases h.2 with h|h|h|h|h <;> omega)
                      · rw [if_neg g11]
                        by_cases g12 : btype = 11 ∨ btype = 17 ∨ btype = 22 ∨ btype = 16 ∨ btype = 30 ∨ btype = 31 ∨ btype = 32 ∨ btype = 33 ∨ btype = 34
                        · rw [if_pos g12]
                          exact iff_of_false (by simp) (fun h => by rcases h.2 with h|h|h|h|h <;> omega)
                        · rw [if_neg g12]
                          by_cases g13 : btype = 14 ∨ btype = 20 ∨ btype = 27
                          · rw [if_pos g13]
                            exact iff_of_false (by simp) (fun h => by rcases h.2 with h|h|h|h|h <;> omega)
                          · rw [if_neg g13]
                            by_cases g14 : btype = 18 ∨ btype = 21 ∨ btype = 23 ∨ btype = 24 ∨ btype = 19 ∨ btype = 28 ∨ btype = 29
                            · rw [if_pos g14]
                              exact iff_of_false (by simp) (fun h => by rcases h.2 with h|h|h|h|h <;> omega)
                            · rw [if_neg g14]
                              by_cases g15 : btype = 15
                              · rw [if_pos g15]
                                exact iff_of_false (by simp) (fun h => by rcases h.2 with h|h|h|h|h <;> omega)
                              · rw [if_neg g15]
                                refine iff_of_true rfl ⟨h7, ?_⟩
                                have hmain : btype = 12 ∨ btype = 13 ∨ btype = 25 ∨ btype = 26 ∨ 34 < btype := by omega
                                exact hmain

/-- C5 counterexample: with flag byte `BM_HM_DEFAULT` and byte-order byte 7
— neither 0 nor 1 — `bm::deserialize` on a little-endian machine silently
picks the byte-swapping decoder instead of raising a serial-format error
(its `switch` is over the machine byte order, not the stream byte), and
`deserializer::deserialize` never inspects the byte-order byte at all. -/
theorem C5_bad_byte_order_accepted :
    bmDeserializeChoice 1 [BM_HM_DEFAULT, 7] = .ok .swapOnLittle
    ∧ (7 : ℕ) ≠ 0 ∧ (7 : ℕ) ≠ 1
    ∧ deserializerHeader false [BM_HM_DEFAULT, 7]
        = deserializerHeader false [BM_HM_DEFAULT, 0] :=
  ⟨rfl, by decide, by decide, rfl⟩

/-- C5 (amended): deserialization raises the serial-format error exactly on
an unknown token byte or on a 64-bit construct read by a 32-bit reader (the
64-bit header flag, or the 64-bit run tokens); the byte-order byte never
causes an error — `bm::deserialize` only falls into its error default when
the machine byte order itself is neither 0 nor 1, which never holds. -/
theorem C5_serial_format_conditions (bm64 : Bool) (bytes rest : List ℕ)
    (flag btype i boCur bo : ℕ) (hcur : boCur = 0 ∨ boCur = 1) :
    (deserializerHeader bm64 (flag :: bytes) = .error .serialFormat ↔
        flag.testBit 5 = true ∧ bm64 = false)
    ∧ (deserializerTokenStep bm64 i btype rest = .error .serialFormat ↔
        btype.testBit 7 = false ∧ (btype = 12 ∨ btype = 13 ∨ 34 < btype
          ∨ (bm64 = false ∧ (btype = 25 ∨ btype = 26))))
    ∧ bmDeserializeChoice boCur (flag :: bo :: bytes) ≠ .error .platform := by
  refine ⟨?_, ?_, ?_⟩
  · have hget : (flag :: bytes).getD 0 0 = flag := rfl
    rw [deserializerHeader]
    simp only [hget]
    by_cases h5 : flag.testBit 5 = true ∧ ¬(bm64 = true)
    · rw [if_pos h5]
      exact iff_of_true rfl ⟨h5.1, by simpa using h5.2⟩
    · rw [if_neg h5]
      have hrhs : ¬(flag.testBit 5 = true ∧ bm64 = false) :=
        fun h => h5 ⟨h.1, by simp [h.2]⟩
      split_ifs <;> exact iff_of_false (by simp) hrhs
  · exact tokenStep_error_iff bm64 i btype rest
  · rw [bmDeserializeChoice]
    split_ifs <;> simp_all

/-- Closed instance of C5: the 64-bit header flag on a 32-bit reader and
the reserved token 12 raise the serial-format error; `bm::deserialize`
accepts the out-of-range byte-order byte 7. -/
theorem C5_serial_format_conditions_witness :
    deserializerHeader false [32] = .error .serialFormat
    ∧ deserializerTokenStep false 0 12 [] = .error .serialFormat
    ∧ bmDeserializeChoice 1 [32, 7] ≠ .error .platform := by
  have h := C5_serial_format_conditions false [] [] 32 12 0 1 7 (Or.inr rfl)
  exact ⟨h.1.mpr ⟨by decide, rfl⟩, h.2.1.mpr ⟨by decide, Or.inl rfl⟩, h.2.2⟩

/-- C6 counterexample: the next-token switches of both readers accept the
tag byte 15 (`set_block_gapbit`) and route it to GAP-block decoding — it is
not rejected with a serial-format error as the spec claims. -/
theorem C6_gapbit_tag_accepted :
    deserializerTokenStep false 0 set_block_gapbit []
        = .ok (.gapBlock set_block_gapbit)
    ∧ deserializerTokenStep true 0 set_block_gapbit []
        = .ok (.gapBlock set_block_gapbit)
    ∧ streamIterNextBlocks set_block_gapbit []
        = .ok (.gapBlockState set_block_gapbit false) :=
  ⟨rfl, rfl, rfl⟩

/-- C6 (amended): a token byte without the high bit equal to 12, 13 or any
value above 34 is rejected with the serial-format error by both
`deserializer::deserialize` and `serial_stream_iterator::next`; tag 15
(see the counterexample) is instead accepted by both. -/
theorem C6_reserved_tags_rejected (i btype : ℕ) (rest : List ℕ)
    (h7 : btype.testBit 7 = false)
    (hres : btype = set_block_sgapbit ∨ btype = set_block_sgapgap ∨ 34 < btype) :
    deserializerTokenStep false i btype rest = .error .serialFormat
    ∧ deserializerTokenStep true i btype rest = .error .serialFormat
    ∧ streamIterNextBlocks btype rest = .error .serialFormat := by
  rcases hres with h | h | h
  · subst h; exact ⟨rfl, rfl, rfl⟩
  · subst h; exact ⟨rfl, rfl, rfl⟩
  · refine ⟨?_, ?_, ?_⟩
    · exact (tokenStep_error_iff false i btype rest).mpr
        ⟨h7, Or.inr (Or.inr (Or.inl h))⟩
    · exact (tokenStep_error_iff true i btype rest).mpr
        ⟨h7, Or.inr (Or.inr (Or.inl h))⟩
    · exact (iterNext_error_iff btype rest).mpr
        ⟨h7, Or.inr (Or.inr (Or.inr (Or.inr h)))⟩

/-- Closed instance of C6 at the reserved tag 42. -/
theorem C6_reserved_tags_rejected_witness :
    deserializerTokenStep false 0 42 [] = .error .serialFormat
    ∧ deserializerTokenStep true 0 42 [] = .error .serialFormat
    ∧ streamIterNextBlocks 42 [] = .error .serialFormat :=
  C6_reserved_tags_rejected 0 42 [] (by decide)
    (Or.inr (Or.inr (by norm_num)))

theorem length_flatMap_bytes32le (l : List ℕ) :
    (l.flatMap bytes32le).length = 4 * l.length := by
  induction l with
  | nil => simp
  | cons a t ih => simp [bytes32le, ih]; omega

theorem length_flatMap_bytes16le (l : List ℕ) :
    (l.flatMap bytes16le).length = 2 * l.length := by
  induction l with
  | nil => simp
  | cons a t ih => simp [bytes16le, ih]; omega

theorem encodeBitInterval_length (blk : List ℕ) :
    (encodeBitInterval blk).length = bitCountNonzeroSize blk + 1 := by
  simp [bitCountNonzeroSize, encodeBitInterval]

theorem popcount64_count (x : ℕ) : popcount64 x = (lowBits 64 x).count true := by
  have hp : ((fun b => b == true) ∘ fun i => x.testBit i) = fun i => x.testBit i := by
    funext i
    simp
  rw [popcount64, lowBits, List.count, List.countP_map,
    List.countP_eq_length_filter, hp]

theorem land_pred_eq (d : ℕ) (hd : d ≠ 0) :
    d &&& (d - 1) = (d >>> (ctz d + 1)) <<< (ctz d + 1) := by
  obtain ⟨hk1, hk0⟩ := ctz_spec d hd
  rw [Nat.shiftRight_eq_div_pow]
  set k := ctz d with hk
  set q := d / 2 ^ (k + 1) with hq
  have hpk : (0 : ℕ) < 2 ^ k := Nat.pos_pow_of_pos k (by norm_num)
  have hpk1 : (0 : ℕ) < 2 ^ (k + 1) := Nat.pos_pow_of_pos (k + 1) (by norm_num)
  have hkk : (2 : ℕ) ^ k < 2 ^ (k + 1) := Nat.pow_lt_pow_right (by norm_num) (by omega)
  have hmodk : d % 2 ^ k = 0 := by
    refine Nat.eq_of_testBit_eq fun i => ?_
    rw [Nat.testBit_mod_two_pow, Nat.zero_testBit]
    by_cases hik : i < k
    · simp [hik, hk0 i hik]
    · simp [hik]
  have hq1 : d / 2 ^ k % 2 = 1 := by
    have h := hk1
    rw [Nat.testBit_to_div_mod] at h
    simpa using h
  have hdecomp : d = 2 ^ (k + 1) * q + 2 ^ k := by
    have h1 : 2 ^ k * (d / 2 ^ k) + d % 2 ^ k = d := Nat.div_add_mod d (2 ^ k)
    rw [hmodk, Nat.add_zero] at h1
    have h2 : 2 * (d / 2 ^ k / 2) + d / 2 ^ k % 2 = d / 2 ^ k :=
      Nat.div_add_mod (d / 2 ^ k) 2
    have h3 : d / 2 ^ k / 2 = q := by
      rw [hq, Nat.div_div_eq_div_mul, pow_succ]
    rw [hq1, h3] at h2
    calc d = 2 ^ k * (d / 2 ^ k) := h1.symm
    _ = 2 ^ k * (2 * q + 1) := by rw [h2]
    _ = 2 ^ (k + 1) * q + 2 ^ k := by ring
  have hdpred : d - 1 = 2 ^ (k + 1) * q + (2 ^ k - 1) := by omega
  refine Nat.eq_of_testBit_eq fun i => ?_
  rw [Nat.testBit_and, Nat.testBit_shiftLeft]
  rcases lt_trichotomy i k with hik | hik | hik
  · rw [hk0 i hik]
    simp [show ¬(k + 1 ≤ i) by omega]
  · have hb : (d - 1).testBit k = false := by
      rw [Nat.testBit_to_div_mod, hdpred]
      have he : 2 ^ (k + 1) * q + (2 ^ k - 1) = 2 ^ k * (2 * q) + (2 ^ k - 1) := by
        ring
      rw [he, Nat.mul_add_div hpk, Nat.div_eq_of_lt (by omega)]
      simp
    rw [hik, hb]
    simp [show ¬(k + 1 ≤ k) by omega]
  · have hsplit : 2 ^ i = 2 ^ (k + 1) * 2 ^ (i - (k + 1)) := by
      rw [← pow_add]
      congr 1
      omega
    have hkk2 : (2 : ℕ) ^ k - 1 < 2 ^ (k + 1) := by omega
    have hd1 : d.testBit i = q.testBit (i - (k + 1)) := by
      rw [Nat.testBit_to_div_mod, Nat.testBit_to_div_mod, hdecomp, hsplit,
        ← Nat.div_div_eq_div_mul, Nat.mul_add_div hpk1,
        Nat.div_eq_of_lt hkk, Nat.add_zero]
    have hd2 : (d - 1).testBit i = q.testBit (i - (k + 1)) := by
      rw [Nat.testBit_to_div_mod, Nat.testBit_to_div_mod, hdpred, hsplit,
        ← Nat.div_div_eq_div_mul, Nat.mul_add_div hpk1,
        Nat.div_eq_of_lt hkk2, Nat.add_zero]
    rw [hd1, hd2, Bool.and_self]
    simp [show k + 1 ≤ i by omega]

theorem lowBits_shiftLeft_split (q m n : ℕ) (h : m ≤ n) :
    lowBits n (q <<< m) = List.replicate m false ++ lowBits (n - m) q := by
  have h0 := lowBits_or_shiftLeft m n 0 q (by positivity) h
  rw [Nat.zero_or] at h0
  rw [h0, lowBits_zero_val]

theorem popcount64_land_pred (d : ℕ) (hd : d ≠ 0) (h64 : d < 2 ^ 64) :
    popcount64 (d &&& (d - 1)) + 1 = popcount64 d := by
  have hk64 : ctz d < 64 := ctz_lt_of_lt d 64 hd h64
  rw [popcount64_count, popcount64_count, lowBits_decomp_ctz 64 d hd h64,
    land_pred_eq d hd, lowBits_shiftLeft_split _ _ _ (by omega)]
  simp [List.count_append, List.count_replicate, List.count_cons]
  rw [show 63 - ctz d = 64 - ctz d - 1 by omega]

theorem popcount64_pos (d : ℕ) (hd : d ≠ 0) (h64 : d < 2 ^ 64) :
    0 < popcount64 d := by
  obtain ⟨hk1, -⟩ := ctz_spec d hd
  have hk64 : ctz d < 64 := ctz_lt_of_lt d 64 hd h64
  exact List.length_pos_of_mem
    (List.mem_filter.mpr ⟨List.mem_range.mpr hk64, by simp [hk1]⟩)

theorem popcount64_le_63 (d : ℕ) (h64 : d < 2 ^ 64) (hne : d ≠ 2 ^ 64 - 1) :
    popcount64 d ≤ 63 := by
  by_contra hcon
  push_neg at hcon
  have hmax : popcount64 d ≤ 64 := by
    rw [popcount64]
    exact le_trans (List.length_filter_le _ _) (by simp)
  have hlen : (lowBits 64 d).count true = (lowBits 64 d).length := by
    rw [← popcount64_count, lowBits_length]
    omega
  have hall := List.count_eq_length.mp hlen
  apply hne
  refine Nat.eq_of_testBit_eq fun i => ?_
  rw [Nat.testBit_two_pow_sub_one]
  by_cases hi : i < 64
  · have hmem : d.testBit i ∈ lowBits 64 d := by
      rw [lowBits]
      exact List.mem_map.mpr ⟨i, List.mem_range.mpr hi, rfl⟩
    rw [← hall _ hmem]
    simp [hi]
  · have : d.testBit i = false :=
      Nat.testBit_lt_two_pow
        (lt_of_lt_of_le h64 (Nat.pow_le_pow_right (by norm_num) (by omega)))
    simp [this, hi]

theorem digestWaves_length (blk : List ℕ) (d0 : ℕ) (h64 : d0 < 2 ^ 64) :
    (digestWaves blk d0).length ≤ 128 * popcount64 d0 := by
  induction d0 using Nat.strong_induction_on with
  | _ d0 ih =>
    rw [digestWaves.eq_def]
    split_ifs with h0
    · simp
    · have hlt : d0 &&& (d0 - 1) < d0 := by
        have h1 : d0 &&& (d0 - 1) ≤ d0 - 1 := Nat.and_le_right
        omega
      have hrec := ih _ hlt (lt_trans hlt h64)
      rw [List.length_append, length_flatMap_bytes32le]
      have htake : ((blk.drop (set_block_digest_wave_size * ctz d0)).take
          set_block_digest_wave_size).length ≤ 32 :=
        le_trans (List.length_take_le _ _) (le_refl _)
      have hpp := popcount64_land_pred d0 h0 h64
      omega

theorem calcBlockDigest0_lt (blk : List ℕ) : calcBlockDigest0 blk < 2 ^ 64 := by
  rw [calcBlockDigest0]
  have haux : ∀ (l : List ℕ), (∀ w ∈ l, w < 64) →
      (List.foldr (fun w1 a =>
        if ((blk.drop (set_block_digest_wave_size * w1)).take
              set_block_digest_wave_size).any (· ≠ 0)
        then a ||| (1 <<< w1) else a) 0 l) < 2 ^ 64 := by
    intro l hl
    induction l with
    | nil =>
      simp only [List.foldr_nil]
      positivity
    | cons a t iht =>
      simp only [List.foldr_cons]
      have hrec := iht (fun w hw => hl w (List.mem_cons_of_mem a hw))
      split_ifs
      · refine or_lt_two_pow _ _ 64 hrec ?_
        rw [Nat.one_shiftLeft]
        exact Nat.pow_lt_pow_right (by norm_num) (hl a (by simp))
      · exact hrec
  exact haux _ (fun w hw => List.mem_range.mp hw)

theorem encodeBitDigest_length (blk : List ℕ) (d0 : ℕ) (h64 : d0 < 2 ^ 64)
    (hblk : blk.length ≤ set_block_size) :
    (encodeBitDigest blk d0).length ≤ 1 + 4 * set_block_size := by
  have hs : set_block_size = 2048 := rfl
  rw [encodeBitDigest]
  split_ifs with h1 h2 h3
  · rw [encodeBitInterval_length]
    have hp := popcount64_le_63 d0 h64 h1
    have hm : bitModelD0Size d0 = 8 + 128 * popcount64 d0 := by
      rw [bitModelD0Size]
      ring
    omega
  · simp only [List.length_cons, List.length_append]
    have hb : (bytes64le d0).length = 8 := by simp [bytes64le, bytes32le]
    have hw := digestWaves_length blk d0 h64
    have hp := popcount64_le_63 d0 h64 h1
    omega
  · rw [encodeBitInterval_length]
    omega
  · simp only [List.length_cons]
    rw [length_flatMap_bytes32le]
    omega

theorem interpolatedArrBitBlock_length (blk : List ℕ) (inverted : Bool)
    (hblk : blk.length ≤ set_block_size) :
    (interpolatedArrBitBlock blk inverted).length ≤ 1 + 4 * set_block_size := by
  have h64 := calcBlockDigest0_lt blk
  simp only [interpolatedArrBitBlock]
  split_ifs <;> first
    | exact encodeBitDigest_length blk _ h64 hblk
    | (have hs : set_block_size = 2048 := rfl
       omega)

theorem interpolatedEncodeGapBlock_length (g : List ℕ) :
    (interpolatedEncodeGapBlock g).length ≤ 1 + 2 * (gapLength g - 1) := by
  simp only [interpolatedEncodeGapBlock]
  split_ifs with h3 hrb
  · simp only [List.length_cons]
    rw [length_flatMap_bytes16le]
    have := List.length_take_le (gapLength g - 1) g
    omega
  · omega
  · simp only [List.length_cons]
    rw [length_flatMap_bytes16le]
    have := List.length_take_le (gapLength g - 1) g
    omega

/-- C4: cost monotonicity of the speculative encoders — the bytes actually
emitted for a block never exceed the plain encoding of the same block: the
BIC GAP emitter stays within the plain GAP image (tag + one 16-bit word per
endpoint), and the BIC array/bit emitter stays within the plain bit block
(tag + 2048 32-bit words), because each compares its speculative size to
the plain cost and rewinds (`set_pos`) to the plain form when larger. -/
theorem C4_cost_monotonicity (g blk : List ℕ) (inverted : Bool)
    (hg : g.length = gapLength g) (hblk : blk.length = set_block_size) :
    (interpolatedEncodeGapBlock g).length
        ≤ (set_block_gap :: (g.take (gapLength g - 1)).flatMap bytes16le).length
    ∧ (interpolatedArrBitBlock blk inverted).length
        ≤ (set_block_bit :: blk.flatMap bytes32le).length := by
  constructor
  · have h := interpolatedEncodeGapBlock_length g
    simp only [List.length_cons]
    rw [length_flatMap_bytes16le]
    have htake : (g.take (gapLength g - 1)).length = gapLength g - 1 := by
      rw [List.length_take]
      have h1 : 1 ≤ gapLength g := by rw [gapLength]; omega
      omega
    rw [htake]
    omega
  · have h := interpolatedArrBitBlock_length blk inverted (le_of_eq hblk)
    simp only [List.length_cons]
    rw [length_flatMap_bytes32le, hblk]
    omega

/-- Closed instance of C4 at the two-word GAP block `[8, 65535]` and the
all-zero 2048-word bit block. -/
theorem C4_cost_monotonicity_witness :
    (interpolatedEncodeGapBlock [8, 65535]).length
        ≤ (set_block_gap ::
            ([8, 65535].take (gapLength [8, 65535] - 1)).flatMap bytes16le).length
    ∧ (interpolatedArrBitBlock (List.replicate 2048 0) false).length
        ≤ (set_block_bit :: (List.replicate 2048 0).flatMap bytes32le).length :=
  C4_cost_monotonicity [8, 65535] (List.replicate 2048 0) false (by decide)
    (by rw [List.length_replicate]; rfl)

theorem header_shift (n s : ℕ) (hs : s < 8) : (n <<< 3 + s) >>> 3 = n := by
  rw [Nat.shiftLeft_eq, Nat.shiftRight_eq_div_pow]
  norm_num
  omega

theorem xor_one_shiftRight_three (h : ℕ) : (h ^^^ 1) >>> 3 = h >>> 3 := by
  refine Nat.eq_of_testBit_eq fun i => ?_
  rw [Nat.testBit_shiftRight, Nat.testBit_shiftRight, Nat.testBit_xor]
  have h1 : (1 : ℕ).testBit (3 + i) = false := by
    apply Nat.testBit_lt_two_pow
    calc (1 : ℕ) < 2 ^ 3 := by norm_num
    _ ≤ 2 ^ (3 + i) := Nat.pow_le_pow_right (by norm_num) (by omega)
  simp [h1]

theorem wf_forced (gapHead : ℕ) (l : List ℕ) (h1 : 1 ≤ gapHead >>> 3)
    (hlen : l.length = gapHead >>> 3 - 1) (hch : l.Chain' (· < ·))
    (hb : ∀ e ∈ l, e < gap_max_bits - 1) :
    wellFormedGap (gapHead :: (l ++ [gap_max_bits - 1])) := by
  refine ⟨?_, ?_, ?_, ?_⟩
  · have happ : (l ++ [gap_max_bits - 1]).length = l.length + 1 := by simp
    simp only [gapLength, List.headD_cons, List.length_cons]
    omega
  · simp only [List.drop_succ_cons, List.drop_zero]
    rw [List.chain'_append]
    refine ⟨hch, List.chain'_singleton _, fun x hx y hy => ?_⟩
    have hxm : x ∈ l := List.mem_of_mem_getLast? hx
    have hym : y = gap_max_bits - 1 := by
      simp only [List.head?_cons, Option.mem_def, Option.some.injEq] at hy
      omega
    have := hb x hxm
    omega
  · simp only [List.drop_succ_cons, List.drop_zero]
    exact List.getLast?_concat l
  · intro e he
    simp only [List.drop_succ_cons, List.drop_zero, List.mem_append,
      List.mem_singleton] at he
    rcases he with he | he
    · have := hb e he
      rw [gap_max_bits] at *
      omega
    · rw [he, gap_max_bits]
      omega

theorem gapEndsAux_spec (t : List ℕ) : ∀ c, c < 65536 →
    List.Chain' (· < ·) (c :: t) → (∀ e ∈ t, e < 65536) →
    (gapEndsAux c t).Chain' (· < ·)
    ∧ (gapEndsAux c t).getLast? = some 65535
    ∧ (∀ e ∈ gapEndsAux c t, c ≤ e ∧ e < 65536)
    ∧ gapEndsAux c t ≠ [] := by
  induction t with
  | nil =>
    intro c hc hch hb
    rw [gapEndsAux]
    split_ifs with h65
    · subst h65
      exact ⟨List.chain'_singleton _, rfl, by simp, by simp⟩
    · refine ⟨?_, rfl, ?_, by simp⟩
      · rw [List.chain'_cons]
        exact ⟨by omega, List.chain'_singleton _⟩
      · intro e he
        simp only [List.mem_cons, List.mem_singleton] at he
        rcases he with he | he | he
        · omega
        · omega
        · simp at he
  | cons d t1 ih =>
    intro c hc hch hb
    rw [gapEndsAux]
    have hcd : c < d := (List.chain'_cons.mp hch).1
    have hch1 : List.Chain' (· < ·) (d :: t1) := (List.chain'_cons.mp hch).2
    have hd : d < 65536 := hb d (by simp)
    have hb1 : ∀ e ∈ t1, e < 65536 := fun e he => hb e (by simp [he])
    obtain ⟨r1, r2, r3, r4⟩ := ih d hd hch1 hb1
    split_ifs with hstep
    · exact ⟨r1, r2, fun e he => ⟨by have := (r3 e he).1; omega, (r3 e he).2⟩, r4⟩
    · have hcd1 : c < d - 1 := by omega
      refine ⟨?_, ?_, ?_, by simp⟩
      · rw [List.chain'_cons, List.chain'_cons']
        refine ⟨hcd1, fun y hy => ?_, r1⟩
        have hmem : y ∈ gapEndsAux d t1 := List.mem_of_mem_head? hy
        have := (r3 y hmem).1
        omega
      · obtain ⟨x, xs, hx⟩ := List.exists_cons_of_ne_nil r4
        rw [hx, List.getLast?_cons_cons, List.getLast?_cons_cons, ← hx]
        exact r2
      · intro e he
        simp only [List.mem_cons] at he
        rcases he with he | he | he
        · omega
        · omega
        · have := r3 e he
          omega

theorem gapFromArr_wf (ids : List ℕ) (hch : ids.Chain' (· < ·))
    (hb : ∀ e ∈ ids, e < gap_max_bits) : wellFormedGap (gapFromArr ids) := by
  cases ids with
  | nil =>
    show wellFormedGap [8, 65535]
    refine ⟨by decide, ?_, by decide, by decide⟩
    simp only [List.drop_succ_cons, List.drop_zero]
    exact List.chain'_singleton _
  | cons a t =>
    simp only [gapFromArr]
    have ha : a < 65536 := hb a (by simp)
    have hbt : ∀ e ∈ t, e < 65536 := fun e he => hb e (by simp [he])
    obtain ⟨r1, r2, r3, r4⟩ := gapEndsAux_spec t a ha hch hbt
    by_cases ha0 : a = 0
    · subst ha0
      show wellFormedGap (((gapEndsAux 0 t).length <<< 3 + 1) :: gapEndsAux 0 t)
      refine ⟨?_, ?_, ?_, ?_⟩
      · simp only [gapLength, List.headD_cons, List.length_cons]
        rw [header_shift _ 1 (by norm_num)]
      · simpa using r1
      · simpa using r2
      · intro e he
        simp only [List.drop_succ_cons, List.drop_zero] at he
        have := (r3 e he).2
        rw [gap_max_bits]
        omega
    · rw [if_neg ha0, if_neg ha0]
      have ha1 : 1 ≤ a := by omega
      refine ⟨?_, ?_, ?_, ?_⟩
      · simp only [gapLength, List.headD_cons, List.length_cons,
          List.singleton_append]
        rw [header_shift _ 0 (by norm_num)]
      · simp only [List.drop_succ_cons, List.drop_zero, List.singleton_append]
        rw [List.chain'_cons']
        refine ⟨fun y hy => ?_, r1⟩
        have hmem : y ∈ gapEndsAux a t := List.mem_of_mem_head? hy
        have := (r3 y hmem).1
        omega
      · simp only [List.drop_succ_cons, List.drop_zero, List.singleton_append]
        obtain ⟨x, xs, hx⟩ := List.exists_cons_of_ne_nil r4
        rw [hx, List.getLast?_cons_cons, ← hx]
        exact r2
      · intro e he
        simp only [List.drop_succ_cons, List.drop_zero, List.singleton_append,
          List.mem_cons] at he
        rcases he with he | he
        · rw [gap_max_bits]
          omega
        · have := (r3 e he).2
          rw [gap_max_bits]
          omega

theorem gapInvert_wf (g : List ℕ) (hg : wellFormedGap g) :
    wellFormedGap (gapInvert g) := by
  match g with
  | [] =>
    exact absurd hg.1 (by simp [gapLength])
  | h :: t =>
    obtain ⟨h1, h2, h3, h4⟩ := hg
    refine ⟨?_, h2, h3, h4⟩
    simp only [gapInvert, gapLength, List.headD_cons, List.length_cons] at h1 ⊢
    rw [xor_one_shiftRight_three]
    exact h1

/-- C10: the GAP blocks materialized by `read_gap_block` are well formed —
length matching the header, strictly increasing bounded endpoints, last
endpoint 65535: the plain, Elias-gamma and BIC forms force the terminal
endpoint and are well formed whenever the decoded endpoint list is strictly
increasing, below 65535 and of the header-declared length; the 1-bit and
id-array forms are unconditionally well formed for sorted in-range ids,
also after `gap_invert` for the inverted variants. -/
theorem C10_read_gap_block_wellformed :
    (∀ (gapHead : ℕ) (ws : List ℕ), 1 ≤ gapHead >>> 3 →
        ws.length = gapHead >>> 3 - 1 → ws.Chain' (· < ·) →
        (∀ e ∈ ws, e < gap_max_bits - 1) →
        wellFormedGap (readGapBlockPlain gapHead ws))
    ∧ (∀ (gapHead : ℕ) (vals : List ℕ), 1 ≤ gapHead >>> 3 →
        (egammaIds vals).length = gapHead >>> 3 - 1 →
        (egammaIds vals).Chain' (· < ·) →
        (∀ e ∈ egammaIds vals, e < gap_max_bits - 1) →
        wellFormedGap (readGapBlockEgamma gapHead vals))
    ∧ (∀ (gapHead minV : ℕ) (vals : List ℕ), 2 ≤ gapHead >>> 3 →
        vals.length = gapHead >>> 3 - 2 →
        (minV :: vals).Chain' (· < ·) →
        (∀ e ∈ minV :: vals, e < gap_max_bits - 1) →
        wellFormedGap (readGapBlockBienc gapHead minV vals))
    ∧ (∀ bitIdx : ℕ, bitIdx < gap_max_bits →
        wellFormedGap (readGapBlockOneBit bitIdx))
    ∧ (∀ (ids : List ℕ) (inv : Bool), ids.Chain' (· < ·) →
        (∀ e ∈ ids, e < gap_max_bits) →
        wellFormedGap (readGapBlockArr ids inv)) := by
  refine ⟨?_, ?_, ?_, ?_, ?_⟩
  · intro gapHead ws h1 hlen hch hb
    rw [readGapBlockPlain]
    have htake : ws.take (gapHead >>> 3 - 1) = ws := by
      rw [← hlen]
      exact List.take_length ws
    rw [htake]
    exact wf_forced gapHead ws h1 hlen hch hb
  · intro gapHead vals h1 hlen hch hb
    rw [readGapBlockEgamma]
    have htake : (egammaIds vals).take (gapHead >>> 3 - 1) = egammaIds vals := by
      rw [← hlen]
      exact List.take_length _
    rw [htake]
    exact wf_forced gapHead _ h1 hlen hch hb
  · intro gapHead minV vals h2 hlen hch hb
    rw [readGapBlockBienc]
    have htake : vals.take (gapHead >>> 3 - 2) = vals := by
      rw [← hlen]
      exact List.take_length _
    rw [htake]
    have hcons : gapHead :: minV :: (vals ++ [gap_max_bits - 1])
        = gapHead :: ((minV :: vals) ++ [gap_max_bits - 1]) := by
      simp
    rw [hcons]
    exact wf_forced gapHead (minV :: vals) (by omega)
      (by simp only [List.length_cons]; omega) hch hb
  · intro bitIdx hbi
    rw [readGapBlockOneBit]
    exact gapFromArr_wf [bitIdx] (List.chain'_singleton _) (by simpa using hbi)
  · intro ids inv hch hb
    rw [readGapBlockArr]
    split_ifs with hinv
    · exact gapInvert_wf _ (gapFromArr_wf ids hch hb)
    · exact gapFromArr_wf ids hch hb

/-- Closed instance of C10: a plain GAP block read from header 16 and one
stream word, the 1-bit block at index 3, and an inverted id-array block. -/
theorem C10_read_gap_block_wellformed_witness :
    wellFormedGap (readGapBlockPlain 16 [5])
    ∧ wellFormedGap (readGapBlockOneBit 3)
    ∧ wellFormedGap (readGapBlockArr [2, 7] true) := by
  have h := C10_read_gap_block_wellformed
  exact ⟨h.1 16 [5] (by decide) (by decide) (List.chain'_singleton _) (by decide),
    h.2.2.2.1 3 (by decide),
    h.2.2.2.2 [2, 7] true
      (List.chain'_cons.mpr ⟨by norm_num, List.chain'_singleton _⟩) (by decide)⟩

end BMSerial
